import Mathlib

/-!
Verification development for the LAME bundle scheduler
(runtime/lame_sched.c of the caladan-lame repository).

The data model and the operations below are a shallow embedding of the C
source.  Thread frames are identified by natural-number ids (a C pointer);
the value `Option.none` stands for the C `NULL`.  The fixed-capacity slot
array `uthreads[LAME_BUNDLE_SIZE_MAX]` is embedded as a Lean list whose
length plays the role of the compile-time capacity; every C array access
`uthreads[i]` becomes `List.getD i emptySlot`.  Machine counters stay
within tiny bounds in every state the claims quantify over, so they are
embedded as `Nat`.
-/

set_option maxHeartbeats 1000000

namespace LameSched

/-- C errno values used by the source (returned negated). -/
def ENOSPC : Int := 28

def ENOENT : Int := 2

def EINVAL : Int := 22

/-- One cell of `struct lame_bundle::uthreads` (`struct lame_uthread_wrapper`). -/
structure Slot where
  uthread : Option Nat
  present : Bool
  cycles : Nat
  lame_count : Nat
  deriving Repr, DecidableEq

/-- An all-zero wrapper cell, as produced by `memset`. -/
def emptySlot : Slot := ⟨none, false, 0, 0⟩

/-- `struct lame_bundle` from defs.h, as used by lame_sched.c. -/
structure Bundle where
  uthreads : List Slot
  size : Nat
  used : Nat
  active : Nat
  total_cycles : Nat
  total_lames : Nat
  total_xsave_lames : Nat
  enabled : Bool
  deriving Repr, DecidableEq

/-- The C array read `bundle->uthreads[i]`. -/
def slotAt (b : Bundle) (i : Nat) : Slot := b.uthreads.getD i emptySlot

/-- `lame_bundle_init`: memset the slot array, install the configured size,
reset `used`, `active`, `total_cycles`, `total_lames`, clear `enabled`.
The source touches no other field. -/
def lame_bundle_init (cfg_lame_bundle_size : Nat) (b : Bundle) : Bundle :=
  { b with
    uthreads := List.replicate b.uthreads.length emptySlot
    size := cfg_lame_bundle_size
    active := 0
    used := 0
    total_cycles := 0
    total_lames := 0
    enabled := false }

/-- `lame_bundle_cleanup`: identical to init with size forced to 0. -/
def lame_bundle_cleanup (b : Bundle) : Bundle :=
  { b with
    uthreads := List.replicate b.uthreads.length emptySlot
    size := 0
    active := 0
    used := 0
    total_cycles := 0
    total_lames := 0
    enabled := false }

/-- The duplicate scan inside `lame_bundle_add_uthread`: some occupied slot
with index below `size` already holds `th`. -/
def hasDupThread (b : Bundle) (th : Nat) : Bool :=
  (List.range b.size).any fun i =>
    (slotAt b i).present && ((slotAt b i).uthread == some th)

/-- The `first_empty_slot` computed by the scan in `lame_bundle_add_uthread`. -/
def firstEmptySlot (b : Bundle) : Option Nat :=
  (List.range b.size).find? fun i => !(slotAt b i).present

/-- `lame_bundle_add_uthread`.  A duplicate returns 0 without modification;
otherwise the thread goes into the first empty slot with zeroed per-slot
counters, `used` is incremented and `active` follows `set_active`. -/
def lame_bundle_add_uthread (b : Bundle) (th : Nat) (set_active : Bool) :
    Int × Bundle :=
  if hasDupThread b th then (0, b)
  else
    match firstEmptySlot b with
    | none => (-ENOSPC, b)
    | some i =>
      (0, { b with
            uthreads := b.uthreads.set i
              { uthread := some th, present := true, cycles := 0, lame_count := 0 }
            used := b.used + 1
            active := if set_active then i else b.active })

/-- The slot update performed by every removal path: only `present` and the
thread reference are cleared. -/
def clearSlot (s : Slot) : Slot := { s with present := false, uthread := none }

/-- The scan inside `lame_bundle_remove_uthread`: first occupied slot below
`size` holding `th`. -/
def findThreadSlot (b : Bundle) (th : Nat) : Option Nat :=
  (List.range b.size).find? fun i =>
    (slotAt b i).present && ((slotAt b i).uthread == some th)

/-- `lame_bundle_remove_uthread`. -/
def lame_bundle_remove_uthread (b : Bundle) (th : Nat) : Int × Bundle :=
  match findThreadSlot b th with
  | none => (-ENOENT, b)
  | some i =>
    (0, { b with
          uthreads := b.uthreads.set i (clearSlot (slotAt b i))
          used := b.used - 1 })

/-- `lame_bundle_remove_uthread_by_index`. -/
def lame_bundle_remove_uthread_by_index (b : Bundle) (index : Nat) :
    Int × Bundle :=
  if b.size ≤ index then (-EINVAL, b)
  else if (slotAt b index).present then
    (0, { b with
          uthreads := b.uthreads.set index (clearSlot (slotAt b index))
          used := b.used - 1 })
  else (-ENOENT, b)

/-- `lame_bundle_remove_uthread_at_active`. -/
def lame_bundle_remove_uthread_at_active (b : Bundle) : Int × Bundle :=
  if (slotAt b b.active).present then
    (0, { b with
          uthreads := b.uthreads.set b.active (clearSlot (slotAt b b.active))
          used := b.used - 1 })
  else (-ENOENT, b)

/-- `lame_bundle_get_used_count`. -/
def lame_bundle_get_used_count (b : Bundle) : Nat := b.used

/-- The loop body index of `lame_sched_get_next_uthread`: the C loop runs
`i = 1 .. size` probing `(active + i) mod size`; here `j = i - 1`. -/
def nextProbe (b : Bundle) (j : Nat) : Nat := (b.active + 1 + j) % b.size

/-- The scan of `lame_sched_get_next_uthread`: first probe offset whose slot
is occupied, if any. -/
def nextScan (b : Bundle) : Option Nat :=
  (List.range b.size).find? fun j => (slotAt b (nextProbe b j)).present

/-- `lame_sched_get_next_uthread`: round-robin selection.  On success the
bundle only changes its `active` index; no counter is touched. -/
def lame_sched_get_next_uthread (b : Bundle) : Option Nat × Bundle :=
  match nextScan b with
  | none => (none, b)
  | some j =>
    ((slotAt b (nextProbe b j)).uthread, { b with active := nextProbe b j })

/-- `lame_sched_get_next_idx_uthread`: the fast path used by `lame_handle`;
assumes occupied slots are packed in `[0, used)`. -/
def lame_sched_get_next_idx_uthread (b : Bundle) : Option Nat × Bundle :=
  let next_idx := if b.used ≤ b.active + 1 then 0 else b.active + 1
  ((slotAt b next_idx).uthread, { b with active := next_idx })

/-- `lame_sched_get_current_uthread`. -/
def lame_sched_get_current_uthread (b : Bundle) : Option Nat :=
  if (slotAt b b.active).present then (slotAt b b.active).uthread else none

/-- `lame_sched_get_current_uthread_nocheck`. -/
def lame_sched_get_current_uthread_nocheck (b : Bundle) : Option Nat :=
  (slotAt b b.active).uthread

/-- `lame_sched_is_enabled`. -/
def lame_sched_is_enabled (b : Bundle) : Bool := b.enabled

/-- `lame_sched_enable`. -/
def lame_sched_enable (b : Bundle) : Bundle := { b with enabled := true }

/-- `lame_sched_disable`. -/
def lame_sched_disable (b : Bundle) : Bundle := { b with enabled := false }

/-- `lame_sched_is_statically_enabled`. -/
def lame_sched_is_statically_enabled (b : Bundle) : Bool := 1 < b.size

/-- `lame_sched_is_dynamically_enabled`. -/
def lame_sched_is_dynamically_enabled (b : Bundle) : Bool := b.enabled

/-- `needs_xsave`: the current source returns the constant `true`. -/
def needs_xsave (_rip : Nat) : Bool := true

/-- Observable outcome of one `lame_handle` invocation: whether a direct
frame-to-frame switch is performed, the frames handed to
`__lame_jmp_thread_direct`, the value stored into the per-worker `__self`
pointer, and the bundle left behind. -/
structure HandleOutcome where
  switched : Bool
  cur_th : Option Nat
  next_th : Option Nat
  self_set : Option Nat
  bundle : Bundle
  deriving Repr, DecidableEq

/-- `lame_handle`: the switching handler body.  It early-returns only on
`used <= 1`; otherwise it picks current and next, updates `__self`, bumps
`total_lames` (and `total_xsave_lames`, since `needs_xsave` is constantly
true) and performs the switch. -/
def lame_handle (rip : Nat) (b : Bundle) : HandleOutcome :=
  if lame_bundle_get_used_count b ≤ 1 then ⟨false, none, none, none, b⟩
  else
    let cur_th := lame_sched_get_current_uthread_nocheck b
    let p := lame_sched_get_next_idx_uthread b
    let b1 := { p.2 with total_lames := p.2.total_lames + 1 }
    let b2 :=
      if needs_xsave rip then
        { b1 with total_xsave_lames := b1.total_xsave_lames + 1 }
      else b1
    ⟨true, cur_th, p.1, p.1, b2⟩

/-- The per-worker state touched by the dismantle path: the embedded bundle,
the circular run queue `rq` (its list length is `RUNTIME_RQ_SIZE`), the
monotone head and tail indices, the overflow list, the two `q_ptrs`
fields, and the per-thread-frame flags written during the spill.  The
per-thread fields are total maps from thread id. -/
structure Worker where
  lame_bundle : Bundle
  rq : List (Option Nat)
  rq_head : Nat
  rq_tail : Nat
  rq_overflow : List Nat
  q_rq_head : Nat
  q_oldest_tsc : Nat
  thread_ready : Nat → Bool
  thread_running : Nat → Bool
  ready_tsc : Nat → Nat

/-- Modelled from the spec: `drain_overflow` lives in the surrounding
runtime scheduler (sched.c), which is not part of the core source here;
the spec states that a drain moves overflow entries behind the queued
ones preserving FIFO while the run queue has room.  One fuel unit is one
moved entry. -/
def drainFuel : Nat → Worker → Worker
  | 0, w => w
  | n + 1, w =>
    match w.rq_overflow with
    | [] => w
    | th :: rest =>
      if w.rq_head - w.rq_tail < w.rq.length then
        drainFuel n
          { w with
            rq_overflow := rest
            rq := w.rq.set (w.rq_head % w.rq.length) (some th)
            rq_head := w.rq_head + 1 }
      else w

/-- Modelled from the spec: `drain_overflow(k)` (see `drainFuel`). -/
def drain_overflow (w : Worker) : Worker := drainFuel w.rq_overflow.length w

/-- The per-slot body of the loop in `__lame_bundle_to_rq`, for an occupied
slot holding thread `th`: mark the frame ready (`thread_ready = true`,
`thread_running = false`, `ready_tsc = now`); if the queue is full or the
overflow list is non-empty, append to the overflow list, drain it and bump
the queue-position head counter; otherwise store the thread at
`rq_head mod R`, advance `rq_head` (publishing `oldest_tsc` when the queue
was empty before) and bump the head counter. -/
def spillThread (w : Worker) (th : Nat) (now : Nat) : Worker :=
  if w.rq.length ≤ w.rq_head - w.rq_tail ∨ w.rq_overflow ≠ [] then
    let w1 := drain_overflow
      { w with
        thread_ready := Function.update w.thread_ready th true
        thread_running := Function.update w.thread_running th false
        ready_tsc := Function.update w.ready_tsc th now
        rq_overflow := w.rq_overflow ++ [th] }
    { w1 with q_rq_head := w1.q_rq_head + 1 }
  else if w.rq_head + 1 - w.rq_tail = 1 then
    { w with
      thread_ready := Function.update w.thread_ready th true
      thread_running := Function.update w.thread_running th false
      ready_tsc := Function.update w.ready_tsc th now
      rq := w.rq.set (w.rq_head % w.rq.length) (some th)
      rq_head := w.rq_head + 1
      q_oldest_tsc := now
      q_rq_head := w.q_rq_head + 1 }
  else
    { w with
      thread_ready := Function.update w.thread_ready th true
      thread_running := Function.update w.thread_running th false
      ready_tsc := Function.update w.ready_tsc th now
      rq := w.rq.set (w.rq_head % w.rq.length) (some th)
      rq_head := w.rq_head + 1
      q_rq_head := w.q_rq_head + 1 }

/-- One iteration of the slot loop in `__lame_bundle_to_rq`: skip an empty
slot, otherwise spill the occupant and clear the slot (including its
per-slot counters). -/
def spillSlot (now : Nat) (w : Worker) (i : Nat) : Worker :=
  if (slotAt w.lame_bundle i).present then
    let th := (slotAt w.lame_bundle i).uthread.getD 0
    let w1 := spillThread w th now
    { w1 with
      lame_bundle :=
        { w1.lame_bundle with uthreads := w1.lame_bundle.uthreads.set i emptySlot } }
  else w

/-- `__lame_bundle_to_rq`: spill every occupied slot in slot-index order.
`now` is the `rdtsc()` read at entry. -/
def lame_bundle_to_rq (w : Worker) (now : Nat) : Worker :=
  (List.range w.lame_bundle.size).foldl (spillSlot now) w

/-- `lame_sched_bundle_dismantle`: spill if the bundle is non-empty, then
reset `used` and `active` unconditionally.  The lock acquisition has no
observable effect in this sequential embedding. -/
def lame_sched_bundle_dismantle (w : Worker) (now : Nat) : Worker :=
  let w1 := if 1 ≤ w.lame_bundle.used then lame_bundle_to_rq w now else w
  { w1 with lame_bundle := { w1.lame_bundle with used := 0, active := 0 } }

/-- `lame_sched_bundle_dismantle_nolock`: identical body, the caller holds
the lock. -/
def lame_sched_bundle_dismantle_nolock (w : Worker) (now : Nat) : Worker :=
  let w1 := if 1 ≤ w.lame_bundle.used then lame_bundle_to_rq w now else w
  { w1 with lame_bundle := { w1.lame_bundle with used := 0, active := 0 } }

/-- The live region of a circular queue with the given head and tail: the
entries at logical positions `tail .. head - 1`, read through the circular
indexing the source uses. -/
def liveAux (rq : List (Option Nat)) (head tail : Nat) : List Nat :=
  (List.range (head - tail)).filterMap fun j =>
    rq.getD ((tail + j) % rq.length) none

/-- The live region of the worker's run queue. -/
def liveRQ (w : Worker) : List Nat := liveAux w.rq w.rq_head w.rq_tail

/-- The threads queued on the worker, in FIFO order: run queue first, then
the overflow list. -/
def queuedThreads (w : Worker) : List Nat := liveRQ w ++ w.rq_overflow

/-- The occupant of slot `i`, when there is one. -/
def occOf (b : Bundle) (i : Nat) : Option Nat :=
  if (slotAt b i).present then (slotAt b i).uthread else none

/-- The occupants of the bundle in slot-index order. -/
def occList (b : Bundle) : List Nat :=
  (List.range b.size).filterMap (occOf b)

/-- The number of occupied slots of the bundle (over the whole array),
`|{i : slots[i].present}|`. -/
def countPresent (b : Bundle) : Nat :=
  (List.range b.uthreads.length).countP fun i => (slotAt b i).present

/-- Bundle well-formedness: the invariants the spec asserts between core
operations, together with the structural facts that make the C array
accesses in-bounds (`size` within the array capacity, no occupant beyond
`size`). -/
def bundleWF (b : Bundle) : Prop :=
  b.size ≤ b.uthreads.length ∧
  b.used = countPresent b ∧
  b.used ≤ b.size ∧
  b.active < b.size ∧
  (∀ i < b.uthreads.length, ∀ j < b.uthreads.length, i ≠ j →
    (slotAt b i).present → (slotAt b j).present →
    (slotAt b i).uthread ≠ (slotAt b j).uthread) ∧
  (∀ s ∈ b.uthreads, s.present = false → s.uthread = none) ∧
  (∀ i < b.uthreads.length, b.size ≤ i → (slotAt b i).present = false)

instance (b : Bundle) : Decidable (bundleWF b) := by
  haveI : Decidable (∀ i < b.uthreads.length, ∀ j < b.uthreads.length, i ≠ j →
      (slotAt b i).present → (slotAt b j).present →
      (slotAt b i).uthread ≠ (slotAt b j).uthread) := Nat.decidableBallLT _ _
  unfold bundleWF; infer_instance

/-- Worker well-formedness for the dismantle path: a well-formed bundle
whose occupants all carry a thread reference, a run queue with positive
capacity whose head and tail delimit at most capacity entries, and the
borrow discipline that no bundle occupant is already queued. -/
def workerWF (w : Worker) : Prop :=
  bundleWF w.lame_bundle ∧
  (∀ i < w.lame_bundle.size, (slotAt w.lame_bundle i).present →
    (slotAt w.lame_bundle i).uthread ≠ none) ∧
  0 < w.rq.length ∧
  w.rq_tail ≤ w.rq_head ∧
  w.rq_head - w.rq_tail ≤ w.rq.length ∧
  (∀ th ∈ occList w.lame_bundle, th ∉ queuedThreads w)

instance (w : Worker) : Decidable (workerWF w) := by
  unfold workerWF; infer_instance

section SlotLemmas

theorem slotAt_set_self (b : Bundle) (i : Nat) (s : Slot)
    (h : i < b.uthreads.length) :
    slotAt { b with uthreads := b.uthreads.set i s } i = s := by
  simp [slotAt, List.getD_eq_getElem?_getD, List.getElem?_set_self',
    List.getElem?_eq_getElem h]

theorem slotAt_set_ne (b : Bundle) (i j : Nat) (s : Slot) (h : i ≠ j) :
    slotAt { b with uthreads := b.uthreads.set i s } j = slotAt b j := by
  simp [slotAt, List.getD_eq_getElem?_getD, List.getElem?_set_ne h]

theorem slotAt_oob (b : Bundle) (i : Nat) (h : b.uthreads.length ≤ i) :
    slotAt b i = emptySlot := by
  simp [slotAt, List.getD_eq_getElem?_getD, List.getElem?_eq_none h]

/-- Not-present beyond `size`, for all indices (the out-of-array part is the
`memset` default). -/
theorem slotAt_not_present_of_ge (b : Bundle) (hwf : bundleWF b) (i : Nat)
    (h : b.size ≤ i) : (slotAt b i).present = false := by
  rcases Nat.lt_or_ge i b.uthreads.length with hi | hi
  · exact hwf.2.2.2.2.2.2 i hi h
  · rw [slotAt_oob b i hi]; rfl

end SlotLemmas

section FindLemmas

/-- A linear scan over `0 .. n-1` returns the least index satisfying the
predicate. -/
theorem find?_range_eq_some {n j : Nat} {p : Nat → Bool} (hj : j < n)
    (hpj : p j = true) (hmin : ∀ k < j, p k = false) :
    (List.range n).find? p = some j := by
  induction n with
  | zero => omega
  | succ m ih =>
    rw [List.range_succ m, List.find?_append]
    rcases Nat.lt_or_ge j m with hjm | hjm
    · rw [ih hjm, Option.or]
    · have hje : j = m := by omega
      subst hje
      have h1 : (List.range j).find? p = none := by
        refine List.find?_eq_none.2 ?_
        intro x hx
        simp [hmin x (List.mem_range.1 hx)]
      rw [h1]
      simp [List.find?, hpj]

/-- A linear scan over `0 .. n-1` finds nothing when no index qualifies. -/
theorem find?_range_eq_none {n : Nat} {p : Nat → Bool}
    (h : ∀ k < n, p k = false) : (List.range n).find? p = none := by
  refine List.find?_eq_none.2 ?_
  intro x hx
  simp [h x (List.mem_range.1 hx)]

end FindLemmas

/-! ### Claim C4: lame_bundle_init -/

/-- A bundle with two empty slots and a stale extended-save counter. -/
def exhaustedXsaveBundle : Bundle :=
  ⟨[emptySlot, emptySlot], 2, 0, 0, 0, 0, 5, false⟩

/-- C4 counterexample: the claim says init sets all counters to 0, but
`lame_bundle_init` never touches `total_xsave_lames`; starting from a
bundle whose `total_xsave_lames` is 5, the field is still 5 after init.
(The function is also total: it takes no size argument and has no failure
path, so the `InvalidConfig` clause has no counterpart in the code.) -/
theorem lame_bundle_init_keeps_xsave_counter :
    ¬((lame_bundle_init 2 exhaustedXsaveBundle).total_xsave_lames = 0) := by
  decide

/-- C4 (amended): `lame_bundle_init` installs the configured size, zeroes
every slot, sets `used = 0`, `active = 0`, `enabled = false`,
`total_cycles = 0` and `total_lames = 0`; it leaves `total_xsave_lames`
unchanged, performs no validation of the size and cannot fail. -/
theorem lame_bundle_init_spec (cfg : Nat) (b : Bundle) :
    (lame_bundle_init cfg b).size = cfg ∧
    (lame_bundle_init cfg b).used = 0 ∧
    (lame_bundle_init cfg b).active = 0 ∧
    (lame_bundle_init cfg b).enabled = false ∧
    (lame_bundle_init cfg b).total_cycles = 0 ∧
    (lame_bundle_init cfg b).total_lames = 0 ∧
    (lame_bundle_init cfg b).total_xsave_lames = b.total_xsave_lames ∧
    (∀ i, slotAt (lame_bundle_init cfg b) i = emptySlot) := by
  refine ⟨rfl, rfl, rfl, rfl, rfl, rfl, rfl, ?_⟩
  intro i
  unfold lame_bundle_init slotAt
  simp only [List.getD_eq_getElem?_getD, List.getElem?_replicate]
  split <;> rfl

/-! ### Claim C9: dismantle on an empty bundle -/

/-- A worker whose bundle is empty (`used = 0`) but whose `active` index is
1, as left behind by removing an occupant that had been made active. -/
def idleWorkerActiveOne : Worker :=
  { lame_bundle := ⟨[emptySlot, emptySlot], 2, 0, 1, 0, 0, 0, true⟩
    rq := [none, none, none, none]
    rq_head := 0
    rq_tail := 0
    rq_overflow := []
    q_rq_head := 0
    q_oldest_tsc := 0
    thread_ready := fun _ => false
    thread_running := fun _ => false
    ready_tsc := fun _ => 0 }

/-- C9 counterexample: the claim says dismantle on an empty bundle leaves
the active index unchanged, but both entry points reset `active` to 0
unconditionally; on a worker with `used = 0`, `active = 1` the index
changes. -/
theorem dismantle_empty_resets_active :
    ¬((lame_sched_bundle_dismantle idleWorkerActiveOne 7).lame_bundle.active
      = idleWorkerActiveOne.lame_bundle.active) := by
  decide

/-- C9 (amended): on an empty bundle (`used = 0`) both dismantle entry
points skip the spill entirely — the run queue, overflow list, thread
flags, slots, size, counters and `enabled` are all untouched — and the
only state change is the unconditional reset `active := 0` (with `used`
rewritten to its existing value 0). -/
theorem dismantle_empty_spec (w : Worker) (now : Nat)
    (h : w.lame_bundle.used = 0) :
    lame_sched_bundle_dismantle w now
      = { w with lame_bundle := { w.lame_bundle with used := 0, active := 0 } } ∧
    lame_sched_bundle_dismantle_nolock w now
      = { w with lame_bundle := { w.lame_bundle with used := 0, active := 0 } } := by
  constructor <;>
    simp [lame_sched_bundle_dismantle, lame_sched_bundle_dismantle_nolock, h]

/-- C9 witness: the amended theorem applied to the concrete idle worker. -/
theorem dismantle_empty_spec_witness :
    lame_sched_bundle_dismantle idleWorkerActiveOne 7
      = { idleWorkerActiveOne with
          lame_bundle :=
            { idleWorkerActiveOne.lame_bundle with used := 0, active := 0 } } :=
  (dismantle_empty_spec idleWorkerActiveOne 7 rfl).1

/-! ### Claim C1: the switching handler does not consult the dynamic gate -/

/-- A bundle with four occupied slots (threads 10, 11, 12, 13), `used = 4`,
`active = 0`, dynamically disabled (`enabled = false`). -/
def disabledFullBundle : Bundle :=
  ⟨[⟨some 10, true, 0, 0⟩, ⟨some 11, true, 0, 0⟩,
    ⟨some 12, true, 0, 0⟩, ⟨some 13, true, 0, 0⟩], 4, 4, 0, 0, 0, 0, false⟩

/-- C1 failing input, evaluated: with `enabled = false` and `used = 4` the
handler body still performs the context switch — it hands frames 10 and 11
to the direct-jump primitive, moves `active` from 0 to 1 and bumps
`total_lames` — because `lame_handle` checks only `used <= 1` and never
reads the `enabled` gate (contradicting both the spec's gate-off scenario
and the comment atop `lame_handle` itself, whose step 2 is to check
whether LAME scheduling is enabled). -/
theorem lame_handle_switches_despite_disabled :
    disabledFullBundle.enabled = false ∧
    disabledFullBundle.used = 4 ∧
    (lame_handle 0 disabledFullBundle).switched = true ∧
    (lame_handle 0 disabledFullBundle).cur_th = some 10 ∧
    (lame_handle 0 disabledFullBundle).next_th = some 11 ∧
    (lame_handle 0 disabledFullBundle).bundle.active = 1 ∧
    (lame_handle 0 disabledFullBundle).bundle.total_lames
      = disabledFullBundle.total_lames + 1 := by
  decide

/-! ### Claim C2: the round-robin selector -/

/-- A bundle with two occupied slots (threads 20 and 21), `active = 0` and
all counters zero. -/
def twoThreadBundle : Bundle :=
  ⟨[⟨some 20, true, 0, 0⟩, ⟨some 21, true, 0, 0⟩], 2, 2, 0, 0, 0, 0, true⟩

/-- C2 counterexample: the claim says `next` increments `total_lames` and
the chosen slot's `lame_count`, but `lame_sched_get_next_uthread` touches
no counter: on the two-thread bundle the returned bundle still has
`total_lames = 0`, not `0 + 1`. -/
theorem next_uthread_does_not_increment :
    ¬((lame_sched_get_next_uthread twoThreadBundle).2.total_lames
      = twoThreadBundle.total_lames + 1) := by
  decide

/-- C2 (amended): starting at `(active + 1) mod size`, the selector scans
forward at most `size` positions and returns the thread of the first
occupied slot it finds while setting `active` to that slot's index; it
returns `none` and leaves the bundle untouched when no slot is occupied;
in every case the only field it can change is `active` — `total_lames`
and the per-slot `lame_count` are left alone (they are maintained by the
handler, not the selector). -/
theorem lame_sched_get_next_uthread_spec (b : Bundle) :
    ((lame_sched_get_next_uthread b).2
      = { b with active := (lame_sched_get_next_uthread b).2.active }) ∧
    ((∀ i < b.size, (slotAt b i).present = false) →
      lame_sched_get_next_uthread b = (none, b)) ∧
    (∀ j < b.size, (slotAt b (nextProbe b j)).present = true →
      (∀ k < j, (slotAt b (nextProbe b k)).present = false) →
      (lame_sched_get_next_uthread b).1 = (slotAt b (nextProbe b j)).uthread ∧
      (lame_sched_get_next_uthread b).2.active = nextProbe b j) := by
  refine ⟨?_, ?_, ?_⟩
  · unfold lame_sched_get_next_uthread
    cases h : nextScan b <;> simp
  · intro hempty
    have hnone : nextScan b = none := by
      unfold nextScan
      refine find?_range_eq_none ?_
      intro k hk
      rcases Nat.eq_zero_or_pos b.size with hz | hpos
      · omega
      · exact hempty (nextProbe b k) (Nat.mod_lt _ hpos)
    unfold lame_sched_get_next_uthread
    rw [hnone]
  · intro j hj hpj hmin
    have hsome : nextScan b = some j := by
      unfold nextScan
      exact find?_range_eq_some hj hpj (fun k hk => hmin k hk)
    unfold lame_sched_get_next_uthread
    rw [hsome]
    exact ⟨rfl, rfl⟩

/-- C2 witness: on the two-thread bundle the first probe (offset 0, slot
`(0 + 1 + 0) mod 2 = 1`) is occupied, so `next` returns thread 21 and sets
`active = 1`; the frame clause shows only `active` changed. -/
theorem lame_sched_get_next_uthread_spec_witness :
    (lame_sched_get_next_uthread twoThreadBundle).1 = some 21 ∧
    (lame_sched_get_next_uthread twoThreadBundle).2.active = 1 ∧
    (lame_sched_get_next_uthread twoThreadBundle).2
      = { twoThreadBundle with
          active := (lame_sched_get_next_uthread twoThreadBundle).2.active } := by
  have h := lame_sched_get_next_uthread_spec twoThreadBundle
  have h3 := h.2.2 0 (by decide) (by decide) (by omega)
  exact ⟨h3.1, h3.2, h.1⟩

/-! ### Claim C5: lame_bundle_add_uthread -/

theorem hasDupThread_iff (b : Bundle) (th : Nat) :
    hasDupThread b th = true
      ↔ ∃ i < b.size, (slotAt b i).present = true ∧
          (slotAt b i).uthread = some th := by
  simp [hasDupThread, List.any_eq_true, List.mem_range]

/-- C5: the add path.  A thread already occupying some slot below `size`
makes the call return 0 (success) with the bundle untouched; otherwise the
thread lands in the first empty slot `i` with freshly zeroed per-slot
counters, `used` grows by one and `active` becomes `i` exactly when
`set_active` is passed; with no duplicate and no empty slot the call
returns `-ENOSPC`. -/
theorem lame_bundle_add_uthread_spec (b : Bundle) (th : Nat) (sa : Bool) :
    ((∃ i < b.size, (slotAt b i).present = true ∧
        (slotAt b i).uthread = some th) →
      lame_bundle_add_uthread b th sa = (0, b)) ∧
    ((¬∃ i < b.size, (slotAt b i).present = true ∧
        (slotAt b i).uthread = some th) →
      ∀ i < b.size, (slotAt b i).present = false →
        (∀ k < i, (slotAt b k).present = true) →
        lame_bundle_add_uthread b th sa
          = (0, { b with
                  uthreads := b.uthreads.set i ⟨some th, true, 0, 0⟩
                  used := b.used + 1
                  active := if sa then i else b.active })) ∧
    ((¬∃ i < b.size, (slotAt b i).present = true ∧
        (slotAt b i).uthread = some th) →
      (∀ i < b.size, (slotAt b i).present = true) →
      lame_bundle_add_uthread b th sa = (-ENOSPC, b)) := by
  refine ⟨?_, ?_, ?_⟩
  · intro hdup
    unfold lame_bundle_add_uthread
    rw [if_pos ((hasDupThread_iff b th).2 hdup)]
  · intro hnodup i hi hempt hmin
    have hnd : ¬(hasDupThread b th = true) := fun h =>
      hnodup ((hasDupThread_iff b th).1 h)
    have hfind : firstEmptySlot b = some i := by
      unfold firstEmptySlot
      refine find?_range_eq_some hi (by simp [hempt]) ?_
      intro k hk
      simp [hmin k hk]
    unfold lame_bundle_add_uthread
    rw [if_neg hnd, hfind]
  · intro hnodup hfull
    have hnd : ¬(hasDupThread b th = true) := fun h =>
      hnodup ((hasDupThread_iff b th).1 h)
    have hfind : firstEmptySlot b = none := by
      unfold firstEmptySlot
      refine find?_range_eq_none ?_
      intro k hk
      simp [hfull k hk]
    unfold lame_bundle_add_uthread
    rw [if_neg hnd, hfind]

/-- A bundle with two empty slots, as produced by init with size 2. -/
def emptyTwoBundle : Bundle := ⟨[emptySlot, emptySlot], 2, 0, 0, 0, 0, 0, false⟩

/-- C5 witness: adding thread 30 with `set_active` to the fresh two-slot
bundle places it in slot 0 with zeroed per-slot counters, bumps `used`
to 1 and makes slot 0 active. -/
theorem lame_bundle_add_uthread_spec_witness :
    lame_bundle_add_uthread emptyTwoBundle 30 true
      = (0, { emptyTwoBundle with
              uthreads := emptyTwoBundle.uthreads.set 0 ⟨some 30, true, 0, 0⟩
              used := emptyTwoBundle.used + 1
              active := if true then 0 else emptyTwoBundle.active }) :=
  (lame_bundle_add_uthread_spec emptyTwoBundle 30 true).2.1
    (by decide) 0 (by decide) (by decide) (by omega)

section SpillLemmas

/-- Unfolding equation for one drain step. -/
theorem drainFuel_succ (m : Nat) (w : Worker) :
    drainFuel (m + 1) w
      = match w.rq_overflow with
        | [] => w
        | th :: rest =>
          if w.rq_head - w.rq_tail < w.rq.length then
            drainFuel m
              { w with
                rq_overflow := rest
                rq := w.rq.set (w.rq_head % w.rq.length) (some th)
                rq_head := w.rq_head + 1 }
          else w := rfl

/-- Draining the overflow list never touches the bundle, the tail index,
the thread flags or `q_oldest_tsc`/`q_rq_head`, and keeps the queue
capacity. -/
theorem drainFuel_frame (n : Nat) (w : Worker) :
    (drainFuel n w).lame_bundle = w.lame_bundle ∧
    (drainFuel n w).rq_tail = w.rq_tail ∧
    (drainFuel n w).rq.length = w.rq.length ∧
    (drainFuel n w).q_rq_head = w.q_rq_head ∧
    (drainFuel n w).q_oldest_tsc = w.q_oldest_tsc ∧
    (drainFuel n w).thread_ready = w.thread_ready ∧
    (drainFuel n w).thread_running = w.thread_running ∧
    (drainFuel n w).ready_tsc = w.ready_tsc := by
  induction n generalizing w with
  | zero => exact ⟨rfl, rfl, rfl, rfl, rfl, rfl, rfl, rfl⟩
  | succ m ih =>
    rcases hov : w.rq_overflow with _ | ⟨th, rest⟩
    · simp [drainFuel_succ, hov]
    · simp only [drainFuel_succ, hov]
      by_cases hsp : w.rq_head - w.rq_tail < w.rq.length
      · rw [if_pos hsp]
        simpa using ih { w with
          rq_overflow := rest
          rq := w.rq.set (w.rq_head % w.rq.length) (some th)
          rq_head := w.rq_head + 1 }
      · rw [if_neg hsp]
        exact ⟨rfl, rfl, rfl, rfl, rfl, rfl, rfl, rfl⟩

/-- Pushing one spilled thread never touches the bundle. -/
theorem spillThread_bundle (w : Worker) (th now : Nat) :
    (spillThread w th now).lame_bundle = w.lame_bundle := by
  unfold spillThread drain_overflow
  by_cases hful : w.rq.length ≤ w.rq_head - w.rq_tail ∨ w.rq_overflow ≠ []
  · rw [if_pos hful]
    exact (drainFuel_frame _ _).1
  · rw [if_neg hful]
    by_cases hone : w.rq_head + 1 - w.rq_tail = 1 <;> simp [hone]

/-- One slot-loop iteration of `__lame_bundle_to_rq`, seen through the
bundle: an occupied slot is reset to the all-zero wrapper and nothing else
in the bundle changes; an empty slot leaves the whole worker untouched. -/
theorem spillSlot_bundle (now : Nat) (w : Worker) (i : Nat) :
    ((slotAt w.lame_bundle i).present = true →
      (spillSlot now w i).lame_bundle
        = { w.lame_bundle with
            uthreads := w.lame_bundle.uthreads.set i emptySlot }) ∧
    ((slotAt w.lame_bundle i).present = false → spillSlot now w i = w) := by
  by_cases hp : (slotAt w.lame_bundle i).present = true
  · have hb := spillThread_bundle w ((slotAt w.lame_bundle i).uthread.getD 0) now
    unfold spillSlot
    rw [if_pos hp]
    exact ⟨fun _ => by simp [hb], fun hc => by rw [hp] at hc; cases hc⟩
  · unfold spillSlot
    rw [if_neg hp]
    exact ⟨fun hc => absurd hc hp, fun _ => rfl⟩

/-- The slot with an index outside the array is the all-zero wrapper, and
setting a slot to the all-zero wrapper makes its cell read back as such. -/
theorem slotAt_set_empty (b : Bundle) (us : List Slot) (i : Nat)
    (h : us = b.uthreads.set i emptySlot) :
    slotAt { b with uthreads := us } i = emptySlot := by
  subst h
  rcases Nat.lt_or_ge i b.uthreads.length with hi | hi
  · exact slotAt_set_self b i emptySlot hi
  · exact slotAt_oob _ i (by simpa using hi)

/-- After folding the spill body over a duplicate-free index list, a slot
reads back as the all-zero wrapper when its index was processed and it was
occupied, and is untouched otherwise. -/
theorem foldl_spill_slotAt (now : Nat) (l : List Nat) (w : Worker) (j : Nat)
    (hnd : l.Nodup) :
    slotAt (l.foldl (spillSlot now) w).lame_bundle j
      = if j ∈ l ∧ (slotAt w.lame_bundle j).present = true then emptySlot
        else slotAt w.lame_bundle j := by
  induction l generalizing w with
  | nil => simp
  | cons i rest ih =>
    have hnd2 := hnd
    rw [List.nodup_cons] at hnd2
    have hstep := spillSlot_bundle now w i
    rw [List.foldl_cons]
    by_cases hji : j = i
    · subst hji
      have hjrest : j ∉ rest := hnd2.1
      by_cases hp : (slotAt w.lame_bundle j).present = true
      · have hslot : slotAt (spillSlot now w j).lame_bundle j = emptySlot := by
          rw [hstep.1 hp]
          exact slotAt_set_empty _ _ j rfl
        rw [ih _ hnd2.2]
        simp [hjrest, hslot, hp]
      · have heq := hstep.2 (by simpa using hp)
        rw [heq, ih _ hnd2.2]
        simp [hjrest, hp]
    · have hslot : slotAt (spillSlot now w i).lame_bundle j
          = slotAt w.lame_bundle j := by
        by_cases hp : (slotAt w.lame_bundle i).present = true
        · rw [hstep.1 hp]
          exact slotAt_set_ne _ i j emptySlot (fun h => hji h.symm)
        · rw [hstep.2 (by simpa using hp)]
      have hpres : (slotAt (spillSlot now w i).lame_bundle j).present
          = (slotAt w.lame_bundle j).present := by rw [hslot]
      rw [ih _ hnd2.2, hpres, hslot]
      simp [hji]

end SpillLemmas

/-! ### Claim C10: removal clears only membership, never per-slot counters -/

theorem getD_replicate_empty (n i : Nat) :
    (List.replicate n emptySlot).getD i emptySlot = emptySlot := by
  simp only [List.getD_eq_getElem?_getD, List.getElem?_replicate]
  split <;> rfl

/-- What a successful scan of `lame_bundle_remove_uthread` guarantees about
the found index. -/
theorem findThreadSlot_facts (b : Bundle) (th i : Nat)
    (h : findThreadSlot b th = some i) :
    i < b.size ∧ (slotAt b i).present = true ∧
    (slotAt b i).uthread = some th := by
  unfold findThreadSlot at h
  have hmem := List.mem_range.1 (List.mem_of_find?_eq_some h)
  have hp := List.find?_some h
  simp only [Bool.and_eq_true, beq_iff_eq] at hp
  exact ⟨hmem, hp.1, hp.2⟩

/-- C10: every successful removal (by thread, by index, at the active
index) only clears the slot's `present` flag and thread reference and
decrements `used`; the slot's `cycles` and `lame_count` keep their values
and the other slots and bundle fields are untouched.  The per-slot
counters are zeroed exactly by the refill in `add` and by `init`,
`cleanup` and the dismantle spill. -/
theorem removal_preserves_slot_counters (b : Bundle) (th index cfg : Nat)
    (w : Worker) (now : Nat) (hcap : b.size ≤ b.uthreads.length) :
    (∀ i, findThreadSlot b th = some i →
      (lame_bundle_remove_uthread b th).1 = 0 ∧
      slotAt (lame_bundle_remove_uthread b th).2 i
        = { slotAt b i with present := false, uthread := none } ∧
      (∀ j, j ≠ i →
        slotAt (lame_bundle_remove_uthread b th).2 j = slotAt b j) ∧
      (lame_bundle_remove_uthread b th).2.used = b.used - 1 ∧
      (lame_bundle_remove_uthread b th).2.active = b.active ∧
      (lame_bundle_remove_uthread b th).2.size = b.size ∧
      (lame_bundle_remove_uthread b th).2.enabled = b.enabled) ∧
    (index < b.size → (slotAt b index).present = true →
      (lame_bundle_remove_uthread_by_index b index).1 = 0 ∧
      slotAt (lame_bundle_remove_uthread_by_index b index).2 index
        = { slotAt b index with present := false, uthread := none } ∧
      (∀ j, j ≠ index →
        slotAt (lame_bundle_remove_uthread_by_index b index).2 j = slotAt b j) ∧
      (lame_bundle_remove_uthread_by_index b index).2.used = b.used - 1) ∧
    ((slotAt b b.active).present = true →
      (lame_bundle_remove_uthread_at_active b).1 = 0 ∧
      slotAt (lame_bundle_remove_uthread_at_active b).2 b.active
        = { slotAt b b.active with present := false, uthread := none } ∧
      (∀ j, j ≠ b.active →
        slotAt (lame_bundle_remove_uthread_at_active b).2 j = slotAt b j) ∧
      (lame_bundle_remove_uthread_at_active b).2.used = b.used - 1) ∧
    (∀ sa i, firstEmptySlot b = some i → hasDupThread b th = false →
      slotAt (lame_bundle_add_uthread b th sa).2 i
        = ⟨some th, true, 0, 0⟩) ∧
    (∀ i, slotAt (lame_bundle_init cfg b) i = emptySlot) ∧
    (∀ i, slotAt (lame_bundle_cleanup b) i = emptySlot) ∧
    (1 ≤ w.lame_bundle.used → ∀ i < w.lame_bundle.size,
      (slotAt w.lame_bundle i).present = true →
      slotAt (lame_sched_bundle_dismantle w now).lame_bundle i = emptySlot) := by
  refine ⟨?_, ?_, ?_, ?_, ?_, ?_, ?_⟩
  · intro i hfind
    obtain ⟨hi, _, _⟩ := findThreadSlot_facts b th i hfind
    have hlen : i < b.uthreads.length := lt_of_lt_of_le hi hcap
    unfold lame_bundle_remove_uthread
    rw [hfind]
    exact ⟨rfl, slotAt_set_self b i _ hlen,
      fun j hj => slotAt_set_ne b i j _ (fun h => hj h.symm),
      rfl, rfl, rfl, rfl⟩
  · intro hidx hp
    have hlen : index < b.uthreads.length := lt_of_lt_of_le hidx hcap
    unfold lame_bundle_remove_uthread_by_index
    rw [if_neg (by omega), if_pos hp]
    exact ⟨rfl, slotAt_set_self b index _ hlen,
      fun j hj => slotAt_set_ne b index j _ (fun h => hj h.symm), rfl⟩
  · intro hp
    have hlen : b.active < b.uthreads.length := by
      by_contra hge
      rw [slotAt_oob b b.active (by omega)] at hp
      exact absurd hp (by decide)
    unfold lame_bundle_remove_uthread_at_active
    rw [if_pos hp]
    exact ⟨rfl, slotAt_set_self b b.active _ hlen,
      fun j hj => slotAt_set_ne b b.active j _ (fun h => hj h.symm), rfl⟩
  · intro sa i hfe hnd
    have hi : i < b.size := by
      unfold firstEmptySlot at hfe
      exact List.mem_range.1 (List.mem_of_find?_eq_some hfe)
    have hlen : i < b.uthreads.length := lt_of_lt_of_le hi hcap
    unfold lame_bundle_add_uthread
    rw [if_neg (by simp [hnd]), hfe]
    exact slotAt_set_self b i _ hlen
  · intro i
    unfold lame_bundle_init slotAt
    exact getD_replicate_empty _ i
  · intro i
    unfold lame_bundle_cleanup slotAt
    exact getD_replicate_empty _ i
  · intro hused i hi hp
    unfold lame_sched_bundle_dismantle
    rw [if_pos hused]
    show slotAt (lame_bundle_to_rq w now).lame_bundle i = emptySlot
    unfold lame_bundle_to_rq
    rw [foldl_spill_slotAt now _ w i (List.nodup_range _)]
    simp [List.mem_range.2 hi, hp]

/-- A three-slot bundle holding threads 40 and 41 with nonzero per-slot
counters, thread 41 occupying slot 1 with `cycles = 9`, `lame_count = 3`. -/
def countedBundle : Bundle :=
  ⟨[⟨some 40, true, 5, 2⟩, ⟨some 41, true, 9, 3⟩, emptySlot], 3, 2, 0, 0, 0, 0, true⟩

/-- C10 witness: removing thread 41 from the counted bundle clears slot 1
to a non-present slot that still carries `cycles = 9`, `lame_count = 3`,
leaves slot 0 alone and drops `used` to 1; init zeroes the slots. -/
theorem removal_preserves_slot_counters_witness :
    (lame_bundle_remove_uthread countedBundle 41).1 = 0 ∧
    slotAt (lame_bundle_remove_uthread countedBundle 41).2 1
      = { slotAt countedBundle 1 with present := false, uthread := none } ∧
    slotAt (lame_bundle_remove_uthread countedBundle 41).2 0
      = slotAt countedBundle 0 ∧
    (lame_bundle_remove_uthread countedBundle 41).2.used
      = countedBundle.used - 1 ∧
    slotAt (lame_bundle_init 3 countedBundle) 1 = emptySlot := by
  have h := removal_preserves_slot_counters countedBundle 41 0 3
    idleWorkerActiveOne 0 (by decide)
  have h1 := h.1 1 (by decide)
  exact ⟨h1.1, h1.2.1, h1.2.2.1 0 (by decide), h1.2.2.2.1, h.2.2.2.2.1 1⟩

/-! ### Claim C6: the bundle invariants are preserved by add and remove -/

section CountLemmas

/-- Changing a predicate over `0 .. n-1` at the single index `i` moves the
count by the difference of the two values at `i`. -/
theorem countP_range_update (n i : Nat) (q q2 : Nat → Bool) (hi : i < n)
    (hsame : ∀ k < n, k ≠ i → q2 k = q k) :
    (List.range n).countP q2 + (if q i then 1 else 0)
      = (List.range n).countP q + (if q2 i then 1 else 0) := by
  induction n with
  | zero => omega
  | succ m ih =>
    rw [List.range_succ m, List.countP_append, List.countP_append]
    rcases Nat.lt_or_ge i m with him | him
    · have hm : q2 m = q m := hsame m (by omega) (by omega)
      have hrec := ih him (fun k hk hki => hsame k (by omega) hki)
      simp only [List.countP_cons, List.countP_nil, hm]
      omega
    · have hie : i = m := by omega
      subst hie
      have hcong : (List.range i).countP q2 = (List.range i).countP q :=
        List.countP_congr fun k hk => by
          have hk2 := List.mem_range.1 hk
          rw [hsame k (by omega) (by omega)]
      simp only [List.countP_cons, List.countP_nil, hcong]
      omega

/-- Counting over `0 .. n-1` equals counting over `0 .. m-1` when the
predicate is false on `m .. n-1`. -/
theorem countP_range_restrict (m n : Nat) (q : Nat → Bool) (hmn : m ≤ n)
    (hoff : ∀ k, m ≤ k → k < n → q k = false) :
    (List.range n).countP q = (List.range m).countP q := by
  induction n with
  | zero =>
    have : m = 0 := by omega
    rw [this]
  | succ d ih =>
    rcases Nat.lt_or_ge m (d + 1) with hlt | hge
    · rw [List.range_succ d, List.countP_append]
      have hd : q d = false := hoff d (by omega) (by omega)
      have hrec := ih (by omega) (fun k hk1 hk2 => hoff k hk1 (by omega))
      simp [List.countP_cons, hd]
      omega
    · have : m = d + 1 := by omega
      rw [this]

/-- The count over `0 .. n-1` is strictly below `n` when the predicate
fails somewhere below `n`. -/
theorem countP_range_lt (n i : Nat) (q : Nat → Bool) (hi : i < n)
    (hqi : q i = false) : (List.range n).countP q < n := by
  have hle := List.countP_le_length q (l := List.range n)
  rw [List.length_range] at hle
  rcases Nat.lt_or_ge ((List.range n).countP q) n with h | h
  · exact h
  · exfalso
    have heq : (List.range n).countP q = (List.range n).length := by
      rw [List.length_range]; omega
    have := List.countP_eq_length.1 heq i (List.mem_range.2 hi)
    rw [hqi] at this
    exact Bool.false_ne_true this

end CountLemmas

/-- Clearing an occupied slot (the common body of the three removal
operations) preserves every bundle invariant. -/
theorem bundleWF_clear (b : Bundle) (i : Nat) (hwf : bundleWF b)
    (hp : (slotAt b i).present = true) (hlen : i < b.uthreads.length) :
    bundleWF { b with
      uthreads := b.uthreads.set i (clearSlot (slotAt b i))
      used := b.used - 1 } := by
  obtain ⟨hcap, hcount, hus, hact, hnodup, hnone, hbeyond⟩ := hwf
  set b2 : Bundle := { b with
    uthreads := b.uthreads.set i (clearSlot (slotAt b i))
    used := b.used - 1 } with hb2
  have hlen2 : b2.uthreads.length = b.uthreads.length := by
    simp [hb2]
  have hslot_same : ∀ j, j ≠ i → slotAt b2 j = slotAt b j := fun j hj =>
    slotAt_set_ne b i j _ (fun h => hj h.symm)
  have hslot_i : slotAt b2 i = clearSlot (slotAt b i) :=
    slotAt_set_self b i _ hlen
  have hcnt : countPresent b2 + 1 = countPresent b := by
    unfold countPresent
    rw [hlen2]
    have hx := countP_range_update b.uthreads.length i
      (fun k => (slotAt b k).present) (fun k => (slotAt b2 k).present) hlen
      (fun k _ hki => show (slotAt b2 k).present = (slotAt b k).present by
        rw [hslot_same k hki])
    simp only [hp, hslot_i, clearSlot] at hx
    simp at hx
    omega
  have husge : 1 ≤ b.used := by
    rw [hcount]; omega
  refine ⟨?_, ?_, ?_, ?_, ?_, ?_, ?_⟩
  · rw [hlen2]; exact hcap
  · show b.used - 1 = countPresent b2
    omega
  · show b.used - 1 ≤ b.size
    omega
  · exact hact
  · intro j hj k hk hjk hpj hpk
    rw [hlen2] at hj hk
    by_cases hji : j = i
    · subst hji
      rw [hslot_i] at hpj
      exact absurd hpj (by simp [clearSlot])
    · by_cases hki : k = i
      · subst hki
        rw [hslot_i] at hpk
        exact absurd hpk (by simp [clearSlot])
      · rw [hslot_same j hji, hslot_same k hki] at *
        exact hnodup j hj k hk hjk hpj hpk
  · intro s hs hps
    rcases List.mem_or_eq_of_mem_set hs with hmem | heq
    · exact hnone s hmem hps
    · rw [heq]; rfl
  · intro j hj hsj
    rw [hlen2] at hj
    by_cases hji : j = i
    · subst hji
      rw [hslot_i]
      rfl
    · rw [hslot_same j hji]
      exact hbeyond j hj hsj

/-- Filling the first empty slot (the success path of `add`) preserves
every bundle invariant, provided the thread is not already present. -/
theorem bundleWF_fill (b : Bundle) (i th : Nat) (sa : Bool) (hwf : bundleWF b)
    (hi : i < b.size) (hp : (slotAt b i).present = false)
    (hnodupth : ∀ k < b.size, (slotAt b k).present = true →
      (slotAt b k).uthread ≠ some th) :
    bundleWF { b with
      uthreads := b.uthreads.set i ⟨some th, true, 0, 0⟩
      used := b.used + 1
      active := if sa then i else b.active } := by
  obtain ⟨hcap, hcount, hus, hact, hnodup, hnone, hbeyond⟩ := hwf
  have hlen : i < b.uthreads.length := lt_of_lt_of_le hi hcap
  set b2 : Bundle := { b with
    uthreads := b.uthreads.set i ⟨some th, true, 0, 0⟩
    used := b.used + 1
    active := if sa then i else b.active } with hb2
  have hlen2 : b2.uthreads.length = b.uthreads.length := by
    simp [hb2]
  have hslot_same : ∀ j, j ≠ i → slotAt b2 j = slotAt b j := fun j hj =>
    slotAt_set_ne b i j _ (fun h => hj h.symm)
  have hslot_i : slotAt b2 i = ⟨some th, true, 0, 0⟩ :=
    slotAt_set_self b i _ hlen
  have hcnt : countPresent b2 = countPresent b + 1 := by
    unfold countPresent
    rw [hlen2]
    have hx := countP_range_update b.uthreads.length i
      (fun k => (slotAt b k).present) (fun k => (slotAt b2 k).present) hlen
      (fun k _ hki => show (slotAt b2 k).present = (slotAt b k).present by
        rw [hslot_same k hki])
    simp only [hp, hslot_i] at hx
    simp at hx
    omega
  have hstrict : countPresent b < b.size := by
    unfold countPresent
    rw [countP_range_restrict b.size b.uthreads.length _ hcap
      (fun k hk1 hk2 => hbeyond k hk2 hk1)]
    exact countP_range_lt b.size i _ hi hp
  refine ⟨?_, ?_, ?_, ?_, ?_, ?_, ?_⟩
  · rw [hlen2]; exact hcap
  · show b.used + 1 = countPresent b2
    omega
  · show b.used + 1 ≤ b.size
    omega
  · show (if sa then i else b.active) < b.size
    cases sa <;> simp [hi, hact]
  · intro j hj k hk hjk hpj hpk
    rw [hlen2] at hj hk
    by_cases hji : j = i
    · by_cases hki : k = i
      · exact absurd (hji.trans hki.symm) hjk
      · rw [hji, hslot_i, hslot_same k hki]
        rw [hslot_same k hki] at hpk
        have hksz : k < b.size := by
          by_contra hge
          rw [hbeyond k hk (by omega)] at hpk
          exact Bool.false_ne_true hpk
        exact fun h => hnodupth k hksz hpk (by rw [← h])
    · by_cases hki : k = i
      · rw [hki, hslot_i, hslot_same j hji]
        rw [hslot_same j hji] at hpj
        have hjsz : j < b.size := by
          by_contra hge
          rw [hbeyond j hj (by omega)] at hpj
          exact Bool.false_ne_true hpj
        exact fun h => hnodupth j hjsz hpj h
      · rw [hslot_same j hji, hslot_same k hki] at *
        exact hnodup j hj k hk hjk hpj hpk
  · intro s hs hps
    rcases List.mem_or_eq_of_mem_set hs with hmem | heq
    · exact hnone s hmem hps
    · rw [heq] at hps; cases hps
  · intro j hj hsj
    rw [hlen2] at hj
    by_cases hji : j = i
    · have hs2 : b2.size = b.size := rfl
      exact absurd hsj (by omega)
    · rw [hslot_same j hji]
      exact hbeyond j hj hsj

/-- C6: starting from a well-formed bundle, `add` and all three removal
operations preserve the invariants: `used` equals the number of occupied
slots, `used <= size`, `active < size`, a thread occupies at most one
slot, and a non-present slot carries no thread reference. -/
theorem bundle_ops_preserve_invariants (b : Bundle) (th index : Nat)
    (sa : Bool) (hwf : bundleWF b) :
    bundleWF (lame_bundle_add_uthread b th sa).2 ∧
    bundleWF (lame_bundle_remove_uthread b th).2 ∧
    bundleWF (lame_bundle_remove_uthread_by_index b index).2 ∧
    bundleWF (lame_bundle_remove_uthread_at_active b).2 := by
  refine ⟨?_, ?_, ?_, ?_⟩
  · unfold lame_bundle_add_uthread
    by_cases hdup : hasDupThread b th
    · rw [if_pos hdup]; exact hwf
    · rw [if_neg hdup]
      cases hfe : firstEmptySlot b with
      | none => exact hwf
      | some i =>
        have hi : i < b.size := by
          unfold firstEmptySlot at hfe
          exact List.mem_range.1 (List.mem_of_find?_eq_some hfe)
        have hp : (slotAt b i).present = false := by
          have := List.find?_some hfe
          simpa using this
        have hnodupth : ∀ k < b.size, (slotAt b k).present = true →
            (slotAt b k).uthread ≠ some th := by
          intro k hk hpk hthk
          exact hdup ((hasDupThread_iff b th).2 ⟨k, hk, hpk, hthk⟩)
        exact bundleWF_fill b i th sa hwf hi hp hnodupth
  · unfold lame_bundle_remove_uthread
    cases hfind : findThreadSlot b th with
    | none => exact hwf
    | some i =>
      obtain ⟨hi, hp, _⟩ := findThreadSlot_facts b th i hfind
      exact bundleWF_clear b i hwf hp (lt_of_lt_of_le hi hwf.1)
  · unfold lame_bundle_remove_uthread_by_index
    by_cases hidx : b.size ≤ index
    · rw [if_pos hidx]; exact hwf
    · rw [if_neg hidx]
      by_cases hp : (slotAt b index).present = true
      · rw [if_pos hp]
        exact bundleWF_clear b index hwf hp
          (lt_of_lt_of_le (by omega) hwf.1)
      · rw [if_neg hp]; exact hwf
  · unfold lame_bundle_remove_uthread_at_active
    by_cases hp : (slotAt b b.active).present = true
    · rw [if_pos hp]
      exact bundleWF_clear b b.active hwf hp
        (lt_of_lt_of_le hwf.2.2.2.1 hwf.1)
    · rw [if_neg hp]; exact hwf

/-- C6 witness: the invariants hold for the two-occupant counted bundle and
are preserved by adding thread 50 and by each removal operation. -/
theorem bundle_ops_preserve_invariants_witness :
    bundleWF countedBundle ∧
    bundleWF (lame_bundle_add_uthread countedBundle 50 true).2 ∧
    bundleWF (lame_bundle_remove_uthread countedBundle 41).2 ∧
    bundleWF (lame_bundle_remove_uthread_by_index countedBundle 0).2 ∧
    bundleWF (lame_bundle_remove_uthread_at_active countedBundle).2 := by
  have h := bundle_ops_preserve_invariants countedBundle 50 0 true (by decide)
  have h2 := bundle_ops_preserve_invariants countedBundle 41 0 true (by decide)
  exact ⟨by decide, h.1, h2.2.1, h.2.2.1, h.2.2.2⟩

/-! ### Claim C7: a full rotation visits every slot exactly once -/

/-- `n` consecutive calls of the round-robin selector: the list of returned
threads and the final bundle. -/
def nextIter : Nat → Bundle → List (Option Nat) × Bundle
  | 0, b => ([], b)
  | n + 1, b =>
    let p := lame_sched_get_next_uthread b
    let rest := nextIter n p.2
    (p.1 :: rest.1, rest.2)

/-- On a full bundle the selector always succeeds at the very first probe,
`(active + 1) mod size`. -/
theorem next_full_step (b : Bundle)
    (hfull : ∀ i < b.size, (slotAt b i).present = true) (hsz : 0 < b.size) :
    lame_sched_get_next_uthread b
      = ((slotAt b ((b.active + 1) % b.size)).uthread,
         { b with active := (b.active + 1) % b.size }) := by
  have hscan : nextScan b = some 0 := by
    unfold nextScan
    exact find?_range_eq_some hsz
      (hfull (nextProbe b 0) (Nat.mod_lt _ hsz))
      (fun k hk => absurd hk (Nat.not_lt_zero k))
  unfold lame_sched_get_next_uthread
  rw [hscan]
  rfl

/-- Iterating the selector `n` times over a full bundle reads off the slots
at offsets `1 .. n` from the starting `active`, and the final bundle
differs from the start only by `active := (active + n) mod size`. -/
theorem nextIter_full (n : Nat) (b : Bundle)
    (hfull : ∀ i < b.size, (slotAt b i).present = true) (hsz : 0 < b.size)
    (hact : b.active < b.size) :
    (nextIter n b).1
      = (List.range n).map
          (fun j => (slotAt b ((b.active + 1 + j) % b.size)).uthread) ∧
    (nextIter n b).2 = { b with active := (b.active + n) % b.size } := by
  induction n generalizing b with
  | zero =>
    refine ⟨rfl, ?_⟩
    show b = { b with active := b.active % b.size }
    rw [Nat.mod_eq_of_lt hact]
  | succ m ih =>
    have hstep := next_full_step b hfull hsz
    set b1 : Bundle := { b with active := (b.active + 1) % b.size } with hb1
    have hfull1 : ∀ i < b1.size, (slotAt b1 i).present = true := hfull
    have hact1 : b1.active < b1.size := Nat.mod_lt _ hsz
    have hrec := ih b1 hfull1 hsz hact1
    have hiter : nextIter (m + 1) b
        = ((slotAt b ((b.active + 1) % b.size)).uthread :: (nextIter m b1).1,
           (nextIter m b1).2) := by
      show (let p := lame_sched_get_next_uthread b
            let rest := nextIter m p.2
            (p.1 :: rest.1, rest.2)) = _
      rw [hstep]
    constructor
    · rw [hiter]
      show _ :: (nextIter m b1).1 = _
      rw [hrec.1, List.range_succ_eq_map, List.map_cons, List.map_map]
      congr 1
      refine List.map_congr_left ?_
      intro j hj
      show (slotAt b1 ((b1.active + 1 + j) % b1.size)).uthread
        = (slotAt b ((b.active + 1 + (j + 1)) % b.size)).uthread
      have hidx : (b1.active + 1 + j) % b1.size
          = (b.active + 1 + (j + 1)) % b.size := by
        show ((b.active + 1) % b.size + 1 + j) % b.size = _
        rw [Nat.add_assoc ((b.active + 1) % b.size) 1 j, Nat.mod_add_mod]
        congr 1
        omega
      rw [hidx]
      rfl
    · rw [hiter]
      show (nextIter m b1).2 = _
      rw [hrec.2]
      show { b with active := (b1.active + m) % b1.size }
        = { b with active := (b.active + (m + 1)) % b.size }
      have hidx : (b1.active + m) % b1.size = (b.active + (m + 1)) % b.size := by
        show ((b.active + 1) % b.size + m) % b.size = _
        rw [Nat.mod_add_mod]
        congr 1
        omega
      rw [hidx]

/-- The rotation index list: offsets `1 .. size` from `active`, reduced
modulo `size`. -/
def rotationIdx (b : Bundle) : List Nat :=
  (List.range b.size).map fun j => (b.active + 1 + j) % b.size

theorem rotationIdx_nodup (b : Bundle) :
    (rotationIdx b).Nodup := by
  refine List.Nodup.map_on ?_ (List.nodup_range b.size)
  intro i hi j hj hij
  have hi2 := List.mem_range.1 hi
  have hj2 := List.mem_range.1 hj
  have hmod : (b.active + 1 + i) % b.size = (b.active + 1 + j) % b.size := hij
  have hcancel : i % b.size = j % b.size :=
    Nat.ModEq.add_left_cancel (Nat.ModEq.refl (b.active + 1)) hmod
  rw [Nat.mod_eq_of_lt hi2, Nat.mod_eq_of_lt hj2] at hcancel
  exact hcancel

theorem rotationIdx_count (b : Bundle) (hsz : 0 < b.size) :
    ∀ i < b.size, (rotationIdx b).count i = 1 := by
  have hnd := rotationIdx_nodup b
  have hlen : (rotationIdx b).length = b.size := by
    simp [rotationIdx]
  have hsub : (rotationIdx b).toFinset ⊆ Finset.range b.size := by
    intro x hx
    rw [List.mem_toFinset] at hx
    obtain ⟨j, _, hjx⟩ := List.mem_map.1 hx
    rw [Finset.mem_range, ← hjx]
    exact Nat.mod_lt _ hsz
  have hcard : (rotationIdx b).toFinset.card = b.size := by
    rw [List.toFinset_card_of_nodup hnd, hlen]
  have heq : (rotationIdx b).toFinset = Finset.range b.size :=
    Finset.eq_of_subset_of_card_le hsub (by rw [hcard, Finset.card_range])
  intro i hi
  have hmem : i ∈ rotationIdx b := by
    rw [← List.mem_toFinset, heq, Finset.mem_range]
    exact hi
  exact List.count_eq_one_of_mem hnd hmem

/-- The bundle of the spec's fill-and-rotate scenario: capacity 8, init to
size 4, threads 31, 32, 33, 34 added in order with `set_active = false`. -/
def fourThreadBundle : Bundle :=
  (lame_bundle_add_uthread
    (lame_bundle_add_uthread
      (lame_bundle_add_uthread
        (lame_bundle_add_uthread
          (lame_bundle_init 4 ⟨List.replicate 8 emptySlot, 0, 0, 0, 0, 0, 0, false⟩)
          31 false).2
        32 false).2
      33 false).2
    34 false).2

/-- C7 counterexample: four `next` calls on the freshly filled four-thread
bundle leave `total_lames` at 0 — the selector does not touch the counter,
so the claimed final `total_lames = 4` is wrong. -/
theorem nextIter_total_lames_stays_zero :
    ¬((nextIter 4 fourThreadBundle).2.total_lames = 4) := by
  decide

/-- C7 (amended): on a full bundle, `size` consecutive `next` calls read
the slots at indices `(active + 1 + j) mod size` for `j < size`, a list of
indices that contains every slot index exactly once, and return the bundle
to its exact starting state (in particular `active` is back where it
started and `total_lames` is unchanged — the counter is not maintained by
the selector).  On the concrete fill-and-rotate bundle the four returned
threads are 32, 33, 34, 31 (the spec's `B, C, D, A`) and `total_lames`
stays 0. -/
theorem nextIter_round_robin_spec (b : Bundle)
    (hfull : ∀ i < b.size, (slotAt b i).present = true) (hsz : 0 < b.size)
    (hact : b.active < b.size) :
    (nextIter b.size b).1
      = (rotationIdx b).map (fun idx => (slotAt b idx).uthread) ∧
    (∀ i < b.size, (rotationIdx b).count i = 1) ∧
    (nextIter b.size b).2 = b ∧
    (nextIter 4 fourThreadBundle).1 = [some 32, some 33, some 34, some 31] ∧
    (nextIter 4 fourThreadBundle).2.total_lames
      = fourThreadBundle.total_lames := by
  have hmain := nextIter_full b.size b hfull hsz hact
  refine ⟨?_, rotationIdx_count b hsz, ?_, by decide, by decide⟩
  · rw [hmain.1]
    simp [rotationIdx]
  · rw [hmain.2]
    have : (b.active + b.size) % b.size = b.active := by
      rw [Nat.add_mod_right, Nat.mod_eq_of_lt hact]
    rw [this]

/-- C7 witness: the amended theorem instantiated on the concrete four-
thread bundle; the four calls return threads 32, 33, 34, 31 and restore
the bundle. -/
theorem nextIter_round_robin_spec_witness :
    (nextIter fourThreadBundle.size fourThreadBundle).2 = fourThreadBundle ∧
    (nextIter 4 fourThreadBundle).1 = [some 32, some 33, some 34, some 31] := by
  have h := nextIter_round_robin_spec fourThreadBundle
    (by decide) (by decide) (by decide)
  exact ⟨h.2.2.1, h.2.2.2.1⟩

/-! ### Claim C8: add-then-remove round trip -/

/-- A bundle whose empty slot 0 still carries a stale per-slot `cycles = 7`
left behind by an earlier removal, with thread 60 occupying slot 1. -/
def staleCounterBundle : Bundle :=
  ⟨[⟨none, false, 7, 0⟩, ⟨some 60, true, 0, 0⟩], 2, 1, 1, 0, 0, 0, true⟩

/-- C8 counterexample: `add(61, false); remove(61)` on the stale-counter
bundle zeroes slot 0's per-slot `cycles` (7 becomes 0), so the slot array
— which is not one of the bundle's monotonic counters (`total_cycles`,
`total_lames`, `total_xsave_lames`) — is not byte-equal to its pre-add
state. -/
theorem add_remove_not_byte_equal :
    ¬((lame_bundle_remove_uthread
        (lame_bundle_add_uthread staleCounterBundle 61 false).2 61).2.uthreads
      = staleCounterBundle.uthreads) := by
  decide

/-- C8 (amended): for a thread `t` not in the bundle, `add(t, false)`
followed by `remove(t)` restores the bundle exactly, except that the
per-slot `cycles` and `lame_count` of the first empty slot — the slot the
add used — are zeroed; on a full bundle the pair is a complete no-op.  In
particular the round trip is byte-equal whenever the empty slots carry
zero counters, and the bundle's monotonic total counters are untouched
either way. -/
theorem add_remove_roundtrip (b : Bundle) (t : Nat)
    (hcap : b.size ≤ b.uthreads.length)
    (hnotin : ∀ k < b.size, (slotAt b k).present = true →
      (slotAt b k).uthread ≠ some t)
    (hnone : ∀ s ∈ b.uthreads, s.present = false → s.uthread = none) :
    ((∀ i < b.size, (slotAt b i).present = true) →
      (lame_bundle_remove_uthread
        (lame_bundle_add_uthread b t false).2 t).2 = b) ∧
    (∀ i < b.size, (slotAt b i).present = false →
      (∀ k < i, (slotAt b k).present = true) →
      (lame_bundle_remove_uthread
        (lame_bundle_add_uthread b t false).2 t).2
        = { b with uthreads := b.uthreads.set i ({ slotAt b i with cycles := 0, lame_count := 0 }) }) := by
  have hnd : ¬(hasDupThread b t = true) := by
    intro h
    obtain ⟨k, hk, hpk, hthk⟩ := (hasDupThread_iff b t).1 h
    exact hnotin k hk hpk hthk
  constructor
  · intro hfull
    have hadd : lame_bundle_add_uthread b t false = (-ENOSPC, b) := by
      unfold lame_bundle_add_uthread
      rw [if_neg hnd]
      have hfe : firstEmptySlot b = none := by
        unfold firstEmptySlot
        refine find?_range_eq_none ?_
        intro k hk
        simp [hfull k hk]
      rw [hfe]
    rw [hadd]
    have hrm : findThreadSlot b t = none := by
      unfold findThreadSlot
      refine find?_range_eq_none ?_
      intro k hk
      by_cases hpk : (slotAt b k).present = true
      · simp [hpk, hnotin k hk hpk]
      · rw [Bool.not_eq_true] at hpk
        simp [hpk]
    unfold lame_bundle_remove_uthread
    rw [hrm]
  · intro i hi hp hmin
    have hlen : i < b.uthreads.length := lt_of_lt_of_le hi hcap
    have hfe : firstEmptySlot b = some i := by
      unfold firstEmptySlot
      refine find?_range_eq_some hi (by simp [hp]) ?_
      intro k hk
      simp [hmin k hk]
    have hadd : lame_bundle_add_uthread b t false
        = (0, { b with
                uthreads := b.uthreads.set i ⟨some t, true, 0, 0⟩
                used := b.used + 1
                active := if false then i else b.active }) := by
      unfold lame_bundle_add_uthread
      rw [if_neg hnd, hfe]
    rw [hadd]
    set b2 : Bundle := { b with
      uthreads := b.uthreads.set i ⟨some t, true, 0, 0⟩
      used := b.used + 1
      active := if false then i else b.active } with hb2
    have hslot_i : slotAt b2 i = ⟨some t, true, 0, 0⟩ :=
      slotAt_set_self b i _ hlen
    have hslot_same : ∀ j, j ≠ i → slotAt b2 j = slotAt b j := fun j hj =>
      slotAt_set_ne b i j _ (fun h => hj h.symm)
    have hfind : findThreadSlot b2 t = some i := by
      unfold findThreadSlot
      refine find?_range_eq_some ?_ ?_ ?_
      · show i < b2.size
        exact hi
      · rw [hslot_i]
        simp
      · intro k hk
        have hks : k < b.size := lt_trans hk hi
        rw [hslot_same k (by omega)]
        simp [hmin k hk, hnotin k hks (hmin k hk)]
    unfold lame_bundle_remove_uthread
    rw [hfind]
    have huth : (slotAt b i).uthread = none := by
      have hmem : slotAt b i ∈ b.uthreads := by
        rw [slotAt, List.getD_eq_getElem b.uthreads emptySlot hlen]
        exact List.getElem_mem hlen
      exact hnone _ hmem hp
    have hclear : clearSlot (slotAt b2 i)
        = { slotAt b i with cycles := 0, lame_count := 0 } := by
      rw [hslot_i]
      show Slot.mk none false 0 0 = _
      cases hsl : slotAt b i with
      | mk u p c lc =>
        rw [hsl] at hp huth
        simp at hp huth
        simp [hp, huth]
    show (0, { b2 with
        uthreads := b2.uthreads.set i (clearSlot (slotAt b2 i))
        used := b2.used - 1 }).2 = _
    rw [hclear]
    show ({ b2 with
        uthreads := (b.uthreads.set i ⟨some t, true, 0, 0⟩).set i ({ slotAt b i with cycles := 0, lame_count := 0 })
        used := b.used + 1 - 1 } : Bundle) = _
    rw [List.set_set]
    rfl

/-- C8 witness: the amended theorem on the stale-counter bundle — the round
trip with thread 61 gives back the bundle with slot 0's counters zeroed. -/
theorem add_remove_roundtrip_witness :
    (lame_bundle_remove_uthread
      (lame_bundle_add_uthread staleCounterBundle 61 false).2 61).2
      = { staleCounterBundle with
          uthreads := staleCounterBundle.uthreads.set 0 ({ slotAt staleCounterBundle 0 with cycles := 0, lame_count := 0 }) } :=
  (add_remove_roundtrip staleCounterBundle 61 (by decide) (by decide)
    (by decide)).2 0 (by decide) (by decide) (by omega)

/-! ### Claim C3: dismantle spills every occupant into the run queue -/

section QueueLemmas

/-- Storing at `head mod R` and bumping the head appends exactly one entry
to the live region, as long as the queue is not full. -/
theorem liveAux_push (rq : List (Option Nat)) (head tail th : Nat)
    (hlen : 0 < rq.length) (hts : tail ≤ head)
    (hroom : head - tail < rq.length) :
    liveAux (rq.set (head % rq.length) (some th)) (head + 1) tail
      = liveAux rq head tail ++ [th] := by
  set R := rq.length with hR
  set c := head - tail with hc
  have hlen2 : (rq.set (head % R) (some th)).length = R := by
    simp [hR]
  unfold liveAux
  rw [hlen2]
  have hc1 : head + 1 - tail = c + 1 := by omega
  rw [hc1, List.range_succ c, List.filterMap_append]
  congr 1
  · rw [← hR]
    refine List.filterMap_congr ?_
    intro j hj
    have hjc : j < c := List.mem_range.1 hj
    have hne : (tail + j) % R ≠ head % R := by
      intro heq
      have hmod : tail + j ≡ tail + c [MOD R] := by
        have hhead : tail + c = head := by omega
        rw [hhead]
        exact heq
      have hjc2 : j % R = c % R := Nat.ModEq.add_left_cancel (Nat.ModEq.refl tail) hmod
      rw [Nat.mod_eq_of_lt (by omega), Nat.mod_eq_of_lt (by omega)] at hjc2
      omega
    rw [List.getD_eq_getElem?_getD, List.getD_eq_getElem?_getD,
      List.getElem?_set_ne (fun h => hne h.symm)]
  · have hcell : (rq.set (head % R) (some th))[(tail + c) % R]?
        = some (some th) := by
      have htc : tail + c = head := by omega
      rw [htc]
      exact List.getElem?_set_eq_of_lt _ (by rw [hR]; exact Nat.mod_lt _ hlen)
    simp [List.getD_eq_getElem?_getD, hcell]

/-- What one drain step (or a full drain) preserves, and that it moves
entries from the overflow list into the run queue without changing the
combined FIFO content. -/
theorem drainFuel_combined (n : Nat) (w : Worker) (hlen : 0 < w.rq.length)
    (hts : w.rq_tail ≤ w.rq_head)
    (hcap : w.rq_head - w.rq_tail ≤ w.rq.length) :
    queuedThreads (drainFuel n w) = queuedThreads w ∧
    w.rq_tail ≤ (drainFuel n w).rq_head ∧
    (drainFuel n w).rq_head - w.rq_tail ≤ w.rq.length := by
  induction n generalizing w with
  | zero => exact ⟨rfl, hts, hcap⟩
  | succ m ih =>
    rcases hov : w.rq_overflow with _ | ⟨th, rest⟩
    · have hstep : drainFuel (m + 1) w = w := by simp [drainFuel_succ, hov]
      rw [hstep]
      exact ⟨rfl, hts, hcap⟩
    · have hstep : drainFuel (m + 1) w
          = if w.rq_head - w.rq_tail < w.rq.length then
              drainFuel m
                { w with
                  rq_overflow := rest
                  rq := w.rq.set (w.rq_head % w.rq.length) (some th)
                  rq_head := w.rq_head + 1 }
            else w := by
        simp [drainFuel_succ, hov]
      rw [hstep]
      by_cases hsp : w.rq_head - w.rq_tail < w.rq.length
      · rw [if_pos hsp]
        set w2 : Worker := { w with
          rq_overflow := rest
          rq := w.rq.set (w.rq_head % w.rq.length) (some th)
          rq_head := w.rq_head + 1 } with hw2
        have hlen2 : 0 < w2.rq.length := by
          show 0 < (w.rq.set _ _).length
          simpa using hlen
        have hts2 : w2.rq_tail ≤ w2.rq_head := by
          show w.rq_tail ≤ w.rq_head + 1
          omega
        have hcap2 : w2.rq_head - w2.rq_tail ≤ w2.rq.length := by
          show w.rq_head + 1 - w.rq_tail ≤ (w.rq.set _ _).length
          simpa using by omega
        have hrec := ih w2 hlen2 hts2 hcap2
        have hq2 : queuedThreads w2 = queuedThreads w := by
          unfold queuedThreads liveRQ
          show liveAux w2.rq w2.rq_head w2.rq_tail ++ rest
            = liveAux w.rq w.rq_head w.rq_tail ++ w.rq_overflow
          rw [hov]
          show liveAux (w.rq.set (w.rq_head % w.rq.length) (some th))
              (w.rq_head + 1) w.rq_tail ++ rest = _
          rw [liveAux_push w.rq w.rq_head w.rq_tail th hlen hts hsp]
          simp
        have hlenset : w2.rq.length = w.rq.length := by
          show (w.rq.set _ _).length = w.rq.length
          simp
        have h3 := hrec.2.2
        rw [hlenset] at h3
        exact ⟨hrec.1.trans hq2, hrec.2.1, h3⟩
      · rw [if_neg hsp]
        exact ⟨rfl, hts, hcap⟩

/-- Spilling one thread appends it to the combined FIFO (run queue followed
by overflow list), marks its frame ready-not-running with the spill
timestamp, and leaves the bundle, the tail index and the queue capacity
alone while keeping the head within capacity. -/
theorem spillThread_spec (w : Worker) (th now : Nat) (hlen : 0 < w.rq.length)
    (hts : w.rq_tail ≤ w.rq_head)
    (hcap : w.rq_head - w.rq_tail ≤ w.rq.length) :
    queuedThreads (spillThread w th now) = queuedThreads w ++ [th] ∧
    (spillThread w th now).rq_tail = w.rq_tail ∧
    (spillThread w th now).rq.length = w.rq.length ∧
    w.rq_tail ≤ (spillThread w th now).rq_head ∧
    (spillThread w th now).rq_head - w.rq_tail ≤ w.rq.length ∧
    (spillThread w th now).lame_bundle = w.lame_bundle ∧
    (spillThread w th now).thread_ready
      = Function.update w.thread_ready th true ∧
    (spillThread w th now).thread_running
      = Function.update w.thread_running th false ∧
    (spillThread w th now).ready_tsc = Function.update w.ready_tsc th now := by
  unfold spillThread
  by_cases hful : w.rq.length ≤ w.rq_head - w.rq_tail ∨ w.rq_overflow ≠ []
  · rw [if_pos hful]
    set wo : Worker := { w with
      thread_ready := Function.update w.thread_ready th true
      thread_running := Function.update w.thread_running th false
      ready_tsc := Function.update w.ready_tsc th now
      rq_overflow := w.rq_overflow ++ [th] } with hwo
    show queuedThreads { drain_overflow wo with
        q_rq_head := (drain_overflow wo).q_rq_head + 1 }
      = queuedThreads w ++ [th] ∧ _
    have hdrain := drainFuel_combined wo.rq_overflow.length wo hlen hts hcap
    have hframe := drainFuel_frame wo.rq_overflow.length wo
    have hqw : queuedThreads wo = queuedThreads w ++ [th] := by
      unfold queuedThreads liveRQ
      show liveAux w.rq w.rq_head w.rq_tail ++ (w.rq_overflow ++ [th]) = _
      rw [List.append_assoc]
    have hq : queuedThreads { drain_overflow wo with
        q_rq_head := (drain_overflow wo).q_rq_head + 1 }
        = queuedThreads (drain_overflow wo) := rfl
    refine ⟨by rw [hq]; exact (hdrain.1.trans hqw), ?_, ?_, ?_, ?_, ?_, ?_, ?_, ?_⟩
    · show (drain_overflow wo).rq_tail = w.rq_tail
      exact hframe.2.1
    · show (drain_overflow wo).rq.length = w.rq.length
      exact hframe.2.2.1
    · show w.rq_tail ≤ (drain_overflow wo).rq_head
      exact hdrain.2.1
    · show (drain_overflow wo).rq_head - w.rq_tail ≤ w.rq.length
      exact hdrain.2.2
    · show (drain_overflow wo).lame_bundle = w.lame_bundle
      exact hframe.1
    · show (drain_overflow wo).thread_ready = _
      exact hframe.2.2.2.2.2.1
    · show (drain_overflow wo).thread_running = _
      exact hframe.2.2.2.2.2.2.1
    · show (drain_overflow wo).ready_tsc = _
      exact hframe.2.2.2.2.2.2.2
  · rw [if_neg hful]
    push_neg at hful
    have hroom : w.rq_head - w.rq_tail < w.rq.length := by omega
    have hov : w.rq_overflow = [] := hful.2
    have hpush := liveAux_push w.rq w.rq_head w.rq_tail th hlen hts hroom
    have hq : liveAux (w.rq.set (w.rq_head % w.rq.length) (some th))
        (w.rq_head + 1) w.rq_tail ++ w.rq_overflow
        = queuedThreads w ++ [th] := by
      rw [hpush, hov, List.append_nil]
      unfold queuedThreads liveRQ
      rw [hov, List.append_nil]
    have hle : w.rq_tail ≤ w.rq_head + 1 := by omega
    have hc1 : w.rq_head + 1 - w.rq_tail ≤ w.rq.length := by omega
    by_cases hone : w.rq_head + 1 - w.rq_tail = 1
    · rw [if_pos hone]
      exact ⟨hq, rfl, by simp, hle, hc1, rfl, rfl, rfl, rfl⟩
    · rw [if_neg hone]
      exact ⟨hq, rfl, by simp, hle, hc1, rfl, rfl, rfl, rfl⟩

/-- On an occupied slot, the queue-side fields of `spillSlot` agree with a
plain `spillThread` of the occupant. -/
theorem spillSlot_queue_eq (now : Nat) (w : Worker) (i uval : Nat)
    (hp : (slotAt w.lame_bundle i).present = true)
    (huv : (slotAt w.lame_bundle i).uthread = some uval) :
    (spillSlot now w i).rq = (spillThread w uval now).rq ∧
    (spillSlot now w i).rq_head = (spillThread w uval now).rq_head ∧
    (spillSlot now w i).rq_tail = (spillThread w uval now).rq_tail ∧
    (spillSlot now w i).rq_overflow = (spillThread w uval now).rq_overflow ∧
    (spillSlot now w i).thread_ready = (spillThread w uval now).thread_ready ∧
    (spillSlot now w i).thread_running
      = (spillThread w uval now).thread_running ∧
    (spillSlot now w i).ready_tsc = (spillThread w uval now).ready_tsc := by
  unfold spillSlot
  rw [if_pos hp, huv]
  exact ⟨rfl, rfl, rfl, rfl, rfl, rfl, rfl⟩

/-- `queuedThreads` only looks at the queue-side fields. -/
theorem queuedThreads_congr (wa wb : Worker) (h1 : wa.rq = wb.rq)
    (h2 : wa.rq_head = wb.rq_head) (h3 : wa.rq_tail = wb.rq_tail)
    (h4 : wa.rq_overflow = wb.rq_overflow) :
    queuedThreads wa = queuedThreads wb := by
  unfold queuedThreads liveRQ
  rw [h1, h2, h3, h4]

/-- Folding the spill body over a duplicate-free index list appends the
occupants, in index order, to the combined FIFO; it marks each spilled
frame ready-not-running with the spill timestamp and leaves every other
frame's flags alone; the tail index, the queue capacity and the bundle
metadata are untouched and the head stays within capacity. -/
theorem foldl_spill_queue (now : Nat) (l : List Nat) (w : Worker)
    (hnd : l.Nodup) (hlen : 0 < w.rq.length) (hts : w.rq_tail ≤ w.rq_head)
    (hcap : w.rq_head - w.rq_tail ≤ w.rq.length)
    (hsome : ∀ i ∈ l, (slotAt w.lame_bundle i).present = true →
      (slotAt w.lame_bundle i).uthread ≠ none) :
    queuedThreads (l.foldl (spillSlot now) w)
      = queuedThreads w ++ l.filterMap (occOf w.lame_bundle) ∧
    (l.foldl (spillSlot now) w).rq_tail = w.rq_tail ∧
    (l.foldl (spillSlot now) w).rq.length = w.rq.length ∧
    w.rq_tail ≤ (l.foldl (spillSlot now) w).rq_head ∧
    (l.foldl (spillSlot now) w).rq_head - w.rq_tail ≤ w.rq.length ∧
    (l.foldl (spillSlot now) w).lame_bundle.size = w.lame_bundle.size ∧
    (l.foldl (spillSlot now) w).lame_bundle.used = w.lame_bundle.used ∧
    (l.foldl (spillSlot now) w).lame_bundle.active = w.lame_bundle.active ∧
    (l.foldl (spillSlot now) w).lame_bundle.enabled
      = w.lame_bundle.enabled ∧
    (∀ th ∈ l.filterMap (occOf w.lame_bundle),
      (l.foldl (spillSlot now) w).thread_ready th = true ∧
      (l.foldl (spillSlot now) w).thread_running th = false ∧
      (l.foldl (spillSlot now) w).ready_tsc th = now) ∧
    (∀ th, th ∉ l.filterMap (occOf w.lame_bundle) →
      (l.foldl (spillSlot now) w).thread_ready th = w.thread_ready th ∧
      (l.foldl (spillSlot now) w).thread_running th = w.thread_running th ∧
      (l.foldl (spillSlot now) w).ready_tsc th = w.ready_tsc th) := by
  induction l generalizing w with
  | nil =>
    refine ⟨by simp [List.filterMap_nil], rfl, rfl, hts, hcap, rfl, rfl, rfl,
      rfl, ?_, ?_⟩
    · intro th hth
      simp at hth
    · intro th _
      exact ⟨rfl, rfl, rfl⟩
  | cons i rest ih =>
    have hnd2 := hnd
    rw [List.nodup_cons] at hnd2
    rw [List.foldl_cons]
    by_cases hp : (slotAt w.lame_bundle i).present = true
    · obtain ⟨uval, huv⟩ : ∃ u, (slotAt w.lame_bundle i).uthread = some u := by
        cases hu : (slotAt w.lame_bundle i).uthread with
        | none => exact absurd hu (hsome i (List.mem_cons_self i rest) hp)
        | some u => exact ⟨u, rfl⟩
      set w1 : Worker := spillSlot now w i with hw1
      have hqeq := spillSlot_queue_eq now w i uval hp huv
      have hspec := spillThread_spec w uval now hlen hts hcap
      have hbun : w1.lame_bundle
          = { w.lame_bundle with
              uthreads := w.lame_bundle.uthreads.set i emptySlot } :=
        (spillSlot_bundle now w i).1 hp
      have hq1 : queuedThreads w1 = queuedThreads w ++ [uval] := by
        rw [queuedThreads_congr w1 (spillThread w uval now) hqeq.1 hqeq.2.1
          hqeq.2.2.1 hqeq.2.2.2.1]
        exact hspec.1
      have htail1 : w1.rq_tail = w.rq_tail := by
        rw [hqeq.2.2.1]; exact hspec.2.1
      have hlen1 : w1.rq.length = w.rq.length := by
        rw [hqeq.1]; exact hspec.2.2.1
      have hlen1p : 0 < w1.rq.length := by rw [hlen1]; exact hlen
      have hts1 : w1.rq_tail ≤ w1.rq_head := by
        rw [htail1, hqeq.2.1]; exact hspec.2.2.2.1
      have hcap1 : w1.rq_head - w1.rq_tail ≤ w1.rq.length := by
        rw [htail1, hlen1, hqeq.2.1]; exact hspec.2.2.2.2.1
      have hready1 : w1.thread_ready = Function.update w.thread_ready uval true := by
        rw [hqeq.2.2.2.2.1]; exact hspec.2.2.2.2.2.2.1
      have hrun1 : w1.thread_running
          = Function.update w.thread_running uval false := by
        rw [hqeq.2.2.2.2.2.1]; exact hspec.2.2.2.2.2.2.2.1
      have htsc1 : w1.ready_tsc = Function.update w.ready_tsc uval now := by
        rw [hqeq.2.2.2.2.2.2]; exact hspec.2.2.2.2.2.2.2.2
      have hslot1 : ∀ j, j ≠ i → slotAt w1.lame_bundle j = slotAt w.lame_bundle j := by
        intro j hj
        rw [hbun]
        exact slotAt_set_ne w.lame_bundle i j _ (fun h => hj h.symm)
      have hocc1 : rest.filterMap (occOf w1.lame_bundle)
          = rest.filterMap (occOf w.lame_bundle) := by
        refine List.filterMap_congr ?_
        intro j hj
        unfold occOf
        rw [hslot1 j (fun h => hnd2.1 (h ▸ hj))]
      have hsome1 : ∀ j ∈ rest, (slotAt w1.lame_bundle j).present = true →
          (slotAt w1.lame_bundle j).uthread ≠ none := by
        intro j hj
        rw [hslot1 j (fun h => hnd2.1 (h ▸ hj))]
        exact hsome j (List.mem_cons_of_mem i hj)
      have hrec := ih w1 hnd2.2 hlen1p hts1 hcap1 hsome1
      have hconslist : (i :: rest).filterMap (occOf w.lame_bundle)
          = uval :: rest.filterMap (occOf w.lame_bundle) := by
        rw [List.filterMap_cons]
        have : occOf w.lame_bundle i = some uval := by
          unfold occOf
          rw [if_pos hp, huv]
        rw [this]
      refine ⟨?_, ?_, ?_, ?_, ?_, ?_, ?_, ?_, ?_, ?_, ?_⟩
      · rw [hrec.1, hq1, hocc1, hconslist, List.append_assoc]
        rfl
      · rw [hrec.2.1, htail1]
      · rw [hrec.2.2.1, hlen1]
      · rw [← htail1]; exact hrec.2.2.2.1
      · rw [← htail1, ← hlen1]; exact hrec.2.2.2.2.1
      · rw [hrec.2.2.2.2.2.1, hbun]
      · rw [hrec.2.2.2.2.2.2.1, hbun]
      · rw [hrec.2.2.2.2.2.2.2.1, hbun]
      · rw [hrec.2.2.2.2.2.2.2.2.1, hbun]
      · intro th hth
        rw [hconslist] at hth
        by_cases hthrest : th ∈ rest.filterMap (occOf w.lame_bundle)
        · rw [← hocc1] at hthrest
          exact hrec.2.2.2.2.2.2.2.2.2.1 th hthrest
        · have hthu : th = uval := by
            rcases List.mem_cons.1 hth with h | h
            · exact h
            · exact absurd h hthrest
          subst hthu
          rw [← hocc1] at hthrest
          obtain ⟨hr1, hr2, hr3⟩ := hrec.2.2.2.2.2.2.2.2.2.2 th hthrest
          rw [hr1, hr2, hr3, hready1, hrun1, htsc1]
          simp [Function.update]
      · intro th hth
        rw [hconslist] at hth
        have hthu : th ≠ uval := fun h => hth (h ▸ List.mem_cons_self uval _)
        have hthrest : th ∉ rest.filterMap (occOf w1.lame_bundle) := by
          rw [hocc1]
          exact fun h => hth (List.mem_cons_of_mem uval h)
        obtain ⟨hr1, hr2, hr3⟩ := hrec.2.2.2.2.2.2.2.2.2.2 th hthrest
        rw [hr1, hr2, hr3, hready1, hrun1, htsc1]
        simp [Function.update, hthu]
    · have hid : spillSlot now w i = w := (spillSlot_bundle now w i).2
        (by simpa using hp)
      rw [hid]
      have hocc : (i :: rest).filterMap (occOf w.lame_bundle)
          = rest.filterMap (occOf w.lame_bundle) := by
        rw [List.filterMap_cons]
        have : occOf w.lame_bundle i = none := by
          unfold occOf
          rw [if_neg hp]
        rw [this]
      rw [hocc]
      exact ih w hnd2.2 hlen hts hcap
        (fun j hj => hsome j (List.mem_cons_of_mem i hj))

end QueueLemmas

/-- In a well-formed bundle the occupant list repeats no thread: a thread
occupies at most one slot. -/
theorem occList_nodup (b : Bundle) (hwf : bundleWF b) : (occList b).Nodup := by
  unfold occList
  refine List.Nodup.filterMap ?_ (List.nodup_range _)
  intro i j u hui huj
  have hfacts : ∀ k, occOf b k = some u →
      (slotAt b k).present = true ∧ (slotAt b k).uthread = some u ∧
      k < b.uthreads.length := by
    intro k hk
    unfold occOf at hk
    by_cases hpk : (slotAt b k).present = true
    · rw [if_pos hpk] at hk
      refine ⟨hpk, hk, ?_⟩
      by_contra hge
      rw [slotAt_oob b k (by omega)] at hpk
      exact Bool.false_ne_true hpk
    · rw [if_neg hpk] at hk
      cases hk
  have hi := hfacts i (Option.mem_def.1 hui)
  have hj := hfacts j (Option.mem_def.1 huj)
  by_contra hij
  exact hwf.2.2.2.2.1 i hi.2.2 j hj.2.2 hij hi.1 hj.1
    (by rw [hi.2.1, hj.2.1])

/-- C3: after either dismantle entry point, `used = 0`, `active = 0`, no
slot is occupied and `enabled` is untouched; every thread that occupied a
slot has been marked `thread_ready = true`, `thread_running = false` with
`ready_tsc = now`, and the combined run queue and overflow list is the old
content with the occupants appended in slot-index order — each of them
present exactly once. -/
theorem dismantle_spec (w : Worker) (now : Nat) (hwf : workerWF w) :
    (lame_sched_bundle_dismantle w now).lame_bundle.used = 0 ∧
    (lame_sched_bundle_dismantle w now).lame_bundle.active = 0 ∧
    (∀ i, (slotAt (lame_sched_bundle_dismantle w now).lame_bundle i).present
      = false) ∧
    (lame_sched_bundle_dismantle w now).lame_bundle.enabled
      = w.lame_bundle.enabled ∧
    queuedThreads (lame_sched_bundle_dismantle w now)
      = queuedThreads w ++ occList w.lame_bundle ∧
    (∀ th ∈ occList w.lame_bundle,
      (lame_sched_bundle_dismantle w now).thread_ready th = true ∧
      (lame_sched_bundle_dismantle w now).thread_running th = false ∧
      (lame_sched_bundle_dismantle w now).ready_tsc th = now ∧
      (queuedThreads (lame_sched_bundle_dismantle w now)).count th = 1) ∧
    lame_sched_bundle_dismantle_nolock w now
      = lame_sched_bundle_dismantle w now := by
  obtain ⟨hbwf, hsome, hlen, hts, hcap, hborrow⟩ := hwf
  have hcount : ∀ th ∈ occList w.lame_bundle,
      (queuedThreads w ++ occList w.lame_bundle).count th = 1 := by
    intro th hth
    rw [List.count_append,
      List.count_eq_zero_of_not_mem (hborrow th hth),
      List.count_eq_one_of_mem (occList_nodup w.lame_bundle hbwf) hth]
  have hmain :
      (lame_sched_bundle_dismantle w now).lame_bundle.used = 0 ∧
      (lame_sched_bundle_dismantle w now).lame_bundle.active = 0 ∧
      (∀ i, (slotAt (lame_sched_bundle_dismantle w now).lame_bundle i).present
        = false) ∧
      (lame_sched_bundle_dismantle w now).lame_bundle.enabled
        = w.lame_bundle.enabled ∧
      queuedThreads (lame_sched_bundle_dismantle w now)
        = queuedThreads w ++ occList w.lame_bundle ∧
      (∀ th ∈ occList w.lame_bundle,
        (lame_sched_bundle_dismantle w now).thread_ready th = true ∧
        (lame_sched_bundle_dismantle w now).thread_running th = false ∧
        (lame_sched_bundle_dismantle w now).ready_tsc th = now ∧
        (queuedThreads (lame_sched_bundle_dismantle w now)).count th = 1) := by
    unfold lame_sched_bundle_dismantle
    by_cases hused : 1 ≤ w.lame_bundle.used
    · rw [if_pos hused]
      have hfold := foldl_spill_queue now (List.range w.lame_bundle.size) w
        (List.nodup_range _) hlen hts hcap
        (fun i hi => hsome i (List.mem_range.1 hi))
      have hfq : queuedThreads (lame_bundle_to_rq w now)
          = queuedThreads w ++ occList w.lame_bundle := hfold.1
      have hen : (lame_bundle_to_rq w now).lame_bundle.enabled
          = w.lame_bundle.enabled := hfold.2.2.2.2.2.2.2.2.1
      have hflags : ∀ th ∈ occList w.lame_bundle,
          (lame_bundle_to_rq w now).thread_ready th = true ∧
          (lame_bundle_to_rq w now).thread_running th = false ∧
          (lame_bundle_to_rq w now).ready_tsc th = now :=
        hfold.2.2.2.2.2.2.2.2.2.1
      have hslots : ∀ i, slotAt (lame_bundle_to_rq w now).lame_bundle i
          = if i ∈ List.range w.lame_bundle.size ∧
              (slotAt w.lame_bundle i).present = true then emptySlot
            else slotAt w.lame_bundle i :=
        fun i => foldl_spill_slotAt now (List.range w.lame_bundle.size) w i
          (List.nodup_range _)
      refine ⟨rfl, rfl, ?_, hen, hfq, ?_⟩
      · intro i
        show (slotAt (lame_bundle_to_rq w now).lame_bundle i).present = false
        rw [hslots i]
        by_cases hmem : i ∈ List.range w.lame_bundle.size
        · by_cases hp : (slotAt w.lame_bundle i).present = true
          · rw [if_pos ⟨hmem, hp⟩]; rfl
          · rw [if_neg (fun hc => hp hc.2)]
            simpa using hp
        · rw [if_neg (fun hc => hmem hc.1)]
          exact slotAt_not_present_of_ge w.lame_bundle hbwf i
            (by_contra fun hc => hmem (List.mem_range.2 (by omega)))
      · intro th hth
        obtain ⟨h1, h2, h3⟩ := hflags th hth
        refine ⟨h1, h2, h3, ?_⟩
        show (queuedThreads (lame_bundle_to_rq w now)).count th = 1
        rw [hfq]
        exact hcount th hth
    · rw [if_neg hused]
      have hcz : countPresent w.lame_bundle = 0 := by
        have := hbwf.2.1
        omega
      have hnp : ∀ i, (slotAt w.lame_bundle i).present = false := by
        intro i
        rcases Nat.lt_or_ge i w.lame_bundle.uthreads.length with hi | hi
        · have := List.countP_eq_zero.1 hcz i (List.mem_range.2 hi)
          simpa using this
        · rw [slotAt_oob _ i hi]; rfl
      have hocc : occList w.lame_bundle = [] := by
        unfold occList
        refine List.filterMap_eq_nil_iff.2 ?_
        intro i _
        unfold occOf
        rw [if_neg (by simp [hnp i])]
      refine ⟨rfl, rfl, fun i => hnp i, rfl, ?_, ?_⟩
      · rw [hocc, List.append_nil]
        rfl
      · intro th hth
        rw [hocc] at hth
        cases hth
  exact ⟨hmain.1, hmain.2.1, hmain.2.2.1, hmain.2.2.2.1, hmain.2.2.2.2.1,
    hmain.2.2.2.2.2, rfl⟩

/-- A worker holding threads 70 and 71 in a two-slot bundle over an empty
three-entry run queue. -/
def spillWorker : Worker :=
  { lame_bundle :=
      ⟨[⟨some 70, true, 0, 0⟩, ⟨some 71, true, 0, 0⟩], 2, 2, 0, 0, 0, 0, true⟩
    rq := [none, none, none]
    rq_head := 0
    rq_tail := 0
    rq_overflow := []
    q_rq_head := 0
    q_oldest_tsc := 0
    thread_ready := fun _ => false
    thread_running := fun _ => true
    ready_tsc := fun _ => 0 }

/-- C3 witness: dismantling the concrete two-occupant worker empties the
bundle and queues threads 70 and 71, in slot order, exactly once each,
with thread 70 marked ready and not running. -/
theorem dismantle_spec_witness :
    (lame_sched_bundle_dismantle spillWorker 9).lame_bundle.used = 0 ∧
    (lame_sched_bundle_dismantle spillWorker 9).lame_bundle.active = 0 ∧
    queuedThreads (lame_sched_bundle_dismantle spillWorker 9)
      = queuedThreads spillWorker ++ occList spillWorker.lame_bundle ∧
    (lame_sched_bundle_dismantle spillWorker 9).thread_ready 70 = true ∧
    (lame_sched_bundle_dismantle spillWorker 9).thread_running 70 = false ∧
    (queuedThreads (lame_sched_bundle_dismantle spillWorker 9)).count 70 = 1 := by
  have h := dismantle_spec spillWorker 9 (by decide)
  have h70 := h.2.2.2.2.2.1 70 (by decide)
  exact ⟨h.1, h.2.1, h.2.2.2.2.1, h70.1, h70.2.1, h70.2.2.2⟩

end LameSched
